import Mathlib

/-!
# compute_ext: sum of squares, sequential and OpenMP-parallel

Shallow embedding of `src/cpp_ext/compute_ext.cpp`.

A value of type `double` is embedded as the rational number it denotes, and
every floating-point operation of the source is the exact operation followed
by a rounding operator `fl : ℚ → ℚ`.  Two rounding operators are used:

* `binary64`: IEEE 754 double precision, round to nearest, ties to even, with
  gradual underflow; the exponent is not bounded above, so the embedding
  agrees with the hardware on every value below `2 ^ 1024`.  Each operation of
  the source is rounded on its own (no fused multiply-add).
* `exactArith`: no rounding; it gives the mathematical value of the computation.

The OpenMP runtime is embedded as the one internal control variable the
source touches (the default team size), the static schedule without chunk
size, and the order in which the private copies of the reduction variable are
combined, which OpenMP leaves unspecified and which is an argument of a call.
-/

namespace ComputeExt

/-! ## The arithmetic of `double` -/

/-- Nearest integer of a rational, a tie going to the even neighbour. -/
def roundHalfEven (q : ℚ) : ℤ :=
  let f := ⌊q⌋
  let r := q - f
  if r < 1 / 2 then f else if 1 / 2 < r then f + 1 else if f % 2 = 0 then f else f + 1

/-- Exponent of the unit in the last place of the binary64 numbers around `x`:
53 significant bits, and the smallest exponent of a normal number is `-1022`. -/
def ulpExp (x : ℚ) : ℤ := max (Int.log 2 |x|) (-1022) - 52

/-- Rounding of a rational to binary64: nearest multiple of the unit in the
last place, ties to even. -/
def binary64 (x : ℚ) : ℚ := roundHalfEven (x / 2 ^ ulpExp x) * 2 ^ ulpExp x

/-- No rounding: arithmetic on the mathematical values. -/
def exactArith (x : ℚ) : ℚ := x

/-! ## `heavy_compute_cpp` -/

/-- The constant `constexpr double s2 = 1e-6`: the decimal literal, rounded. -/
def s2 (fl : ℚ → ℚ) : ℚ := fl (1 / 1000000)

/-- Body of the loop, shared by both functions:
`double di = static_cast<double>(i); sum += di * di;`. -/
def loopBody (fl : ℚ → ℚ) (sum : ℚ) (i : ℤ) : ℚ :=
  let di := fl (i : ℚ)
  fl (sum + fl (di * di))

/-- The loop `for (int64_t i = lo; i < hi; ++i) body`, started with the
accumulator `sum`: the indices `lo, lo + 1, ..., hi - 1` in increasing order,
none when `hi <= lo`. -/
def forLoop (fl : ℚ → ℚ) (lo hi : ℤ) (sum : ℚ) : ℚ :=
  (List.range (hi - lo).toNat).foldl (fun acc (k : ℕ) => loopBody fl acc (lo + (k : ℤ))) sum

/-- The function `double heavy_compute_cpp(int64_t n)`. -/
def heavy_compute_cpp (fl : ℚ → ℚ) (n : ℤ) : ℚ :=
  fl (s2 fl * forLoop fl 0 n 0)

/-! ## The OpenMP runtime -/

/-- Process-wide state of the OpenMP runtime that the source reads and writes:
the control variable `nthreads-var`, the size of the team of the next parallel
region.  It is positive. -/
structure OmpEnv where
  nthreads : ℕ
  pos : 0 < nthreads

/-- The runtime call `omp_set_num_threads(num_threads)`, for a positive argument. -/
def omp_set_num_threads (num_threads : ℤ) (h : 0 < num_threads) (_env : OmpEnv) : OmpEnv :=
  ⟨num_threads.toNat, by omega⟩

/-- Iterations `[lo, hi)` of thread `t` in a team of `T` threads under
`schedule(static)` without chunk size, for the loop `for (i = 0; i < n; ++i)`:
with `q = n / T` and `r = n % T`, each of the first `r` threads takes `q + 1`
consecutive iterations and each other thread takes `q` (the split made by the
GNU and LLVM runtimes); no iteration when `n <= 0`. -/
def staticChunk (n : ℤ) (T t : ℕ) : ℤ × ℤ :=
  let cnt := max n 0
  let q := cnt / (T : ℤ)
  let r := cnt % (T : ℤ)
  if (t : ℤ) < r then ((q + 1) * t, (q + 1) * t + (q + 1)) else (q * t + r, q * t + r + q)

/-- Private copy of `sum` of thread `t` after its part of the loop: the copy
starts at `0.0`, the identity of `+`. -/
def privateSum (fl : ℚ → ℚ) (n : ℤ) (T t : ℕ) : ℚ :=
  forLoop fl (staticChunk n T t).1 (staticChunk n T t).2 0

/-- End of `reduction(+:sum)`: the private copies are added one by one to the
original variable, which holds `init`. -/
def reduceAdd (fl : ℚ → ℚ) (init : ℚ) (parts : List ℚ) : ℚ :=
  parts.foldl (fun acc p => fl (acc + p)) init

/-! ## `heavy_compute_cpp_parallel` -/

/-- First statement of the function:
`if (num_threads > 0) omp_set_num_threads(num_threads);`. -/
def applyNumThreads (env : OmpEnv) (num_threads : ℤ) : OmpEnv :=
  if h : 0 < num_threads then omp_set_num_threads num_threads h env else env

/-- The function `double heavy_compute_cpp_parallel(int64_t n, int num_threads)`,
run in the runtime state `env`; `order` lists the threads of the team in the
order in which their private copies are combined.  It returns the value and
the runtime state after the call. -/
def heavy_compute_cpp_parallel (fl : ℚ → ℚ) (order : List ℕ) (env : OmpEnv) (n : ℤ)
    (num_threads : ℤ) : ℚ × OmpEnv :=
  let env1 := applyNumThreads env num_threads
  let sum := reduceAdd fl 0 (order.map (privateSum fl n env1.nthreads))
  (fl (s2 fl * sum), env1)

/-- One call of `heavy_compute_cpp_parallel` made by a client. -/
structure Call where
  n : ℤ
  num_threads : ℤ
  order : List ℕ

/-- A client making the calls of a list one after the other in one process:
the value of each call and the runtime state it leaves. -/
def runCalls (fl : ℚ → ℚ) : OmpEnv → List Call → List (ℚ × OmpEnv)
  | _, [] => []
  | env, c :: cs =>
    heavy_compute_cpp_parallel fl c.order env c.n c.num_threads ::
      runCalls fl (heavy_compute_cpp_parallel fl c.order env c.n c.num_threads).2 cs

/-! ## Splits of the index range -/

/-- Consecutive chunks `[start, start + s₁), [start + s₁, start + s₁ + s₂), ...`
of the given sizes. -/
def chunksFrom (start : ℤ) : List ℕ → List (ℤ × ℤ)
  | [] => []
  | s :: ss => (start, start + (s : ℤ)) :: chunksFrom (start + (s : ℤ)) ss

/-- Reduction over a list of chunks, combined in the order of the list: each
chunk is summed from `0.0` by the loop, and the partial sums are added to the
original variable, which holds `0.0`. -/
def chunkedSum (fl : ℚ → ℚ) (chunks : List (ℤ × ℤ)) : ℚ :=
  reduceAdd fl 0 (chunks.map (fun c => forLoop fl c.1 c.2 0))

/-! ## Auxiliary quantities -/

/-- Closed form of `0² + 1² + ... + (n-1)²`. -/
def closedForm (n : ℤ) : ℚ := ((n : ℚ) - 1) * n * (2 * n - 1) / 6

/-- Start of the iterations of thread `t` under the static schedule. -/
def staticStart (n : ℤ) (T t : ℕ) : ℤ := (staticChunk n T t).1

/-- Sum of the squares of the `k` integers from `lo` on. -/
def sumSq (lo : ℤ) (k : ℕ) : ℤ := ∑ j in Finset.range k, (lo + (j : ℤ)) ^ 2

/-! ## The sequential loop, one trip at a time -/

/-- Largest value of the type `int64_t` of the counter `i` and of the bound `n`. -/
def INT64_MAX : ℤ := 2 ^ 63 - 1

/-- Largest finite value of the type `double`. -/
def DBL_MAX : ℚ := (2 ^ 53 - 1) * 2 ^ 971

/-- State of the loop of `heavy_compute_cpp`: how many times the body has run,
the counter `i` and the accumulator `sum`. -/
structure LoopState where
  iters : ℕ
  i : ℤ
  sum : ℚ

/-- Where the loop stands: about to evaluate the test `i < n`, left because the
test failed, or stopped because `++i` was applied to `INT64_MAX` (signed
overflow, which has no defined result). -/
inductive LoopOutcome where
  | running (st : LoopState)
  | finished (st : LoopState)
  | overflow (st : LoopState)

/-- One trip of `for (int64_t i = 0; i < n; ++i) body`: the test `i < n`, then
the body, then the increment `++i`. -/
def loopStep (fl : ℚ → ℚ) (n : ℤ) (st : LoopState) : LoopOutcome :=
  if st.i < n then
    if st.i = INT64_MAX then LoopOutcome.overflow ⟨st.iters + 1, st.i, loopBody fl st.sum st.i⟩
    else LoopOutcome.running ⟨st.iters + 1, st.i + 1, loopBody fl st.sum st.i⟩
  else LoopOutcome.finished st

/-- The loop of `heavy_compute_cpp` after `k` trips, started by
`double sum = 0.0` and `int64_t i = 0`; a loop that has been left or has
stopped stays as it is. -/
def loopAfter (fl : ℚ → ℚ) (n : ℤ) : ℕ → LoopOutcome
  | 0 => LoopOutcome.running ⟨0, 0, 0⟩
  | k + 1 =>
    match loopAfter fl n k with
    | LoopOutcome.running st => loopStep fl n st
    | LoopOutcome.finished st => LoopOutcome.finished st
    | LoopOutcome.overflow st => LoopOutcome.overflow st

/-- The call `heavy_compute_cpp(n)` made in the runtime state `env`: no
statement of the function reads or writes the state of the OpenMP runtime; it
returns the value and the runtime state after the call. -/
def heavy_compute_cpp_in (fl : ℚ → ℚ) (env : OmpEnv) (n : ℤ) : ℚ × OmpEnv :=
  (heavy_compute_cpp fl n, env)

/-! # Lemmas -/

/-! ## The loop -/

theorem forLoop_of_le (fl : ℚ → ℚ) {lo hi : ℤ} (h : hi ≤ lo) (s : ℚ) :
    forLoop fl lo hi s = s := by
  have h0 : (hi - lo).toNat = 0 := by omega
  simp [forLoop, h0]

theorem forLoop_succ (fl : ℚ → ℚ) {lo hi : ℤ} (h : lo ≤ hi) (s : ℚ) :
    forLoop fl lo (hi + 1) s = loopBody fl (forLoop fl lo hi s) hi := by
  have h1 : (hi + 1 - lo).toNat = (hi - lo).toNat + 1 := by omega
  have h2 : lo + (((hi - lo).toNat : ℕ) : ℤ) = hi := by omega
  simp only [forLoop, h1, List.range_succ, List.foldl_append, List.foldl_cons, List.foldl_nil, h2]

theorem forLoop_split (fl : ℚ → ℚ) {lo mid : ℤ} (h : lo ≤ mid) (k : ℕ) (s : ℚ) :
    forLoop fl lo (mid + k) s = forLoop fl mid (mid + k) (forLoop fl lo mid s) := by
  induction k with
  | zero => simp [forLoop_of_le]
  | succ k ih =>
    have e : mid + ((k + 1 : ℕ) : ℤ) = (mid + k) + 1 := by push_cast; ring
    rw [e, forLoop_succ fl (by omega), forLoop_succ fl (by omega), ih]

theorem loopBody_exact (s : ℚ) (i : ℤ) : loopBody exactArith s i = s + (i : ℚ) ^ 2 := by
  simp [loopBody, exactArith, pow_two]

theorem closedForm_succ (n : ℤ) : closedForm (n + 1) = closedForm n + (n : ℚ) ^ 2 := by
  simp only [closedForm]; push_cast; ring

theorem forLoop_exact_add (lo : ℤ) (k : ℕ) (s : ℚ) :
    forLoop exactArith lo (lo + k) s = s + (closedForm (lo + k) - closedForm lo) := by
  induction k with
  | zero => simp [forLoop_of_le]
  | succ k ih =>
    have e : lo + ((k + 1 : ℕ) : ℤ) = (lo + k) + 1 := by push_cast; ring
    rw [e, forLoop_succ exactArith (by omega), ih, loopBody_exact, closedForm_succ]; ring

theorem forLoop_exact (lo hi : ℤ) (h : lo ≤ hi) (s : ℚ) :
    forLoop exactArith lo hi s = s + (closedForm hi - closedForm lo) := by
  have := forLoop_exact_add lo (hi - lo).toNat s
  have e : lo + (((hi - lo).toNat : ℕ) : ℤ) = hi := by omega
  rwa [e] at this

theorem closedForm_zero : closedForm 0 = 0 := by simp [closedForm]

theorem sum_sq_closedForm (k : ℕ) :
    (∑ i in Finset.range k, (i : ℚ) ^ 2) = closedForm k := by
  induction k with
  | zero => simp [closedForm]
  | succ k ih =>
    rw [Finset.sum_range_succ, ih]
    have := closedForm_succ k
    push_cast at this ⊢
    rw [this]

theorem heavy_compute_cpp_exact (n : ℤ) (h : 0 ≤ n) :
    heavy_compute_cpp exactArith n = 1 / 1000000 * closedForm n := by
  simp [heavy_compute_cpp, s2, exactArith, forLoop_exact 0 n h, closedForm_zero]

/-! ## The reduction in exact arithmetic -/

theorem reduceAdd_exact (init : ℚ) (parts : List ℚ) :
    reduceAdd exactArith init parts = init + parts.sum := by
  induction parts generalizing init with
  | nil => simp [reduceAdd]
  | cons p ps ih =>
    have : reduceAdd exactArith init (p :: ps) = reduceAdd exactArith (init + p) ps := by
      simp [reduceAdd, exactArith]
    rw [this, ih, List.sum_cons]; ring

theorem chunksFrom_sum (start : ℤ) (sizes : List ℕ) :
    ((chunksFrom start sizes).map (fun c => forLoop exactArith c.1 c.2 0)).sum =
      closedForm (start + (sizes.sum : ℕ)) - closedForm start := by
  induction sizes generalizing start with
  | nil => simp [chunksFrom]
  | cons s ss ih =>
    simp only [chunksFrom, List.map_cons, List.sum_cons, ih]
    rw [forLoop_exact _ _ (by omega)]
    push_cast
    rw [add_assoc]; ring_nf

theorem chunkedSum_exact (n : ℤ) (sizes : List ℕ) (hs : ((sizes.sum : ℕ) : ℤ) = n)
    (cs : List (ℤ × ℤ)) (hp : cs.Perm (chunksFrom 0 sizes)) :
    chunkedSum exactArith cs = closedForm n := by
  rw [chunkedSum, reduceAdd_exact, (hp.map _).sum_eq, chunksFrom_sum, zero_add, zero_add, hs,
    closedForm_zero, sub_zero]

theorem staticChunk_snd (n : ℤ) (T t : ℕ) :
    (staticChunk n T t).2 = staticStart n T (t + 1) := by
  simp only [staticStart, staticChunk]
  split_ifs with h1 h2 h2
  · push_cast; ring
  · push_cast at h2 ⊢
    have : max n 0 % (T : ℤ) = t + 1 := by omega
    rw [this]; ring
  · push_cast at h2; omega
  · push_cast; ring

theorem staticChunk_le (n : ℤ) (T t : ℕ) : (staticChunk n T t).1 ≤ (staticChunk n T t).2 := by
  have hq : 0 ≤ max n 0 / (T : ℤ) := Int.ediv_nonneg (by omega) (by omega)
  simp only [staticChunk]
  split_ifs <;> simp <;> omega

theorem staticStart_zero (n : ℤ) (T : ℕ) : staticStart n T 0 = 0 := by
  have hr : 0 ≤ max n 0 % (T : ℤ) := by
    by_cases hT : (T : ℤ) = 0
    · simp [hT]
    · exact Int.emod_nonneg _ hT
  simp only [staticStart, staticChunk]
  split_ifs with h
  · simp
  · push_cast at h ⊢
    have : max n 0 % (T : ℤ) = 0 := le_antisymm (not_lt.mp h) hr
    simp [this]

theorem staticStart_team (n : ℤ) (T : ℕ) (hT : 0 < T) : staticStart n T T = max n 0 := by
  have hr : max n 0 % (T : ℤ) < T := Int.emod_lt_of_pos _ (by omega)
  simp only [staticStart, staticChunk, if_neg (not_lt.mpr hr.le)]
  have := Int.ediv_add_emod (max n 0) (T : ℤ)
  linarith [mul_comm (max n 0 / (T : ℤ)) (T : ℤ)]

theorem privateSum_exact (n : ℤ) (T t : ℕ) :
    privateSum exactArith n T t =
      closedForm (staticStart n T (t + 1)) - closedForm (staticStart n T t) := by
  rw [privateSum, forLoop_exact _ _ (staticChunk_le n T t), staticChunk_snd, zero_add]
  rfl

theorem list_sum_telescope (F : ℕ → ℚ) (T : ℕ) :
    ((List.range T).map (fun t => F (t + 1) - F t)).sum = F T - F 0 := by
  induction T with
  | zero => simp
  | succ T ih => simp [List.range_succ, ih]

theorem parallel_exact (order : List ℕ) (env : OmpEnv) (n num_threads : ℤ)
    (hp : order.Perm (List.range (applyNumThreads env num_threads).nthreads)) :
    (heavy_compute_cpp_parallel exactArith order env n num_threads).1 =
      1 / 1000000 * closedForm (max n 0) := by
  simp only [heavy_compute_cpp_parallel, reduceAdd_exact, (hp.map _).sum_eq, zero_add]
  have : ((List.range (applyNumThreads env num_threads).nthreads).map
      (privateSum exactArith n (applyNumThreads env num_threads).nthreads)).sum
      = closedForm (max n 0) := by
    rw [funext (privateSum_exact n (applyNumThreads env num_threads).nthreads),
      list_sum_telescope (fun t => closedForm (staticStart n _ t)), staticStart_zero,
      staticStart_team _ _ (applyNumThreads env num_threads).pos,
      closedForm_zero, sub_zero]
  rw [this]; simp [exactArith, s2]

/-! ## Rounding to the nearest integer -/

theorem roundHalfEven_intCast (m : ℤ) : roundHalfEven (m : ℚ) = m := by
  simp [roundHalfEven]

theorem roundHalfEven_mono {p q : ℚ} (h : p ≤ q) : roundHalfEven p ≤ roundHalfEven q := by
  have hf : ⌊p⌋ ≤ ⌊q⌋ := Int.floor_mono h
  have hp1 : (⌊p⌋ : ℚ) ≤ p := Int.floor_le p
  have hp2 : p < ⌊p⌋ + 1 := Int.lt_floor_add_one p
  have hq1 : (⌊q⌋ : ℚ) ≤ q := Int.floor_le q
  have hq2 : q < ⌊q⌋ + 1 := Int.lt_floor_add_one q
  rcases hf.lt_or_eq with hlt | heq
  · have a : roundHalfEven p ≤ ⌊p⌋ + 1 := by
      simp only [roundHalfEven]; split_ifs <;> omega
    have b : ⌊q⌋ ≤ roundHalfEven q := by
      simp only [roundHalfEven]; split_ifs <;> omega
    omega
  · simp only [roundHalfEven, ← heq]
    split_ifs <;> first | omega | (exfalso; linarith)

theorem roundHalfEven_le {q : ℚ} {k : ℤ} (h : q ≤ k) : roundHalfEven q ≤ k := by
  simpa [roundHalfEven_intCast] using roundHalfEven_mono h

theorem le_roundHalfEven {q : ℚ} {k : ℤ} (h : (k : ℚ) ≤ q) : k ≤ roundHalfEven q := by
  simpa [roundHalfEven_intCast] using roundHalfEven_mono h

/-! ## The unit in the last place -/

theorem two_zpow_pos (e : ℤ) : (0 : ℚ) < 2 ^ e := zpow_pos (by norm_num) e

theorem ulpExp_ge (x : ℚ) : -1074 ≤ ulpExp x := by
  simp only [ulpExp]; omega

theorem abs_lt_zpow_ulpExp (x : ℚ) : |x| < 2 ^ (ulpExp x + 53) := by
  have h1 : |x| < (2 : ℚ) ^ (Int.log 2 |x| + 1) := by
    simpa using Int.lt_zpow_succ_log_self (R := ℚ) (b := 2) (by norm_num) |x|
  have h2 : (2 : ℚ) ^ (Int.log 2 |x| + 1) ≤ 2 ^ (ulpExp x + 53) := by
    apply zpow_le_zpow_right₀ (by norm_num)
    simp only [ulpExp]; omega
  exact lt_of_lt_of_le h1 h2

theorem ulpExp_eq_of_bounds {x : ℚ} {e : ℤ} (h1 : 2 ^ e ≤ |x|) (h2 : |x| < 2 ^ (e + 1))
    (he : -1022 ≤ e) : ulpExp x = e - 52 := by
  have hx : 0 < |x| := lt_of_lt_of_le (two_zpow_pos e) h1
  have a : e ≤ Int.log 2 |x| := by
    have := (Int.zpow_le_iff_le_log (R := ℚ) (b := 2) (by norm_num) (x := e) hx).mp
    exact this (by simpa using h1)
  have b : Int.log 2 |x| < e + 1 := by
    have := (Int.lt_zpow_iff_log_lt (R := ℚ) (b := 2) (by norm_num) (x := e + 1) hx).mp
    exact this (by simpa using h2)
  simp only [ulpExp]; omega

theorem ulpExp_le_of_lt {x : ℚ} {e : ℤ} (h0 : x ≠ 0) (h2 : |x| < 2 ^ (e + 1))
    (he : -1022 ≤ e) : ulpExp x ≤ e - 52 := by
  have hx : 0 < |x| := abs_pos.mpr h0
  · have b : Int.log 2 |x| < e + 1 := by
      have := (Int.lt_zpow_iff_log_lt (R := ℚ) (b := 2) (by norm_num) (x := e + 1) hx).mp
      exact this (by simpa using h2)
    simp only [ulpExp]; omega

/-! ## Rounding to binary64 -/

theorem binary64_zero : binary64 0 = 0 := by
  simp [binary64, roundHalfEven]

theorem binary64_nonneg {x : ℚ} (h : 0 ≤ x) : 0 ≤ binary64 x := by
  have h1 : ((0 : ℤ) : ℚ) ≤ x / 2 ^ ulpExp x := by
    simpa using div_nonneg h (two_zpow_pos _).le
  have h2 : (0 : ℚ) ≤ roundHalfEven (x / 2 ^ ulpExp x) := by exact_mod_cast le_roundHalfEven h1
  exact mul_nonneg h2 (two_zpow_pos _).le

/-- A value that is an integer number of units in its own last place is not
changed by rounding. -/
theorem binary64_of_int_ulps {x : ℚ} {m : ℤ} (h : x / 2 ^ ulpExp x = m) : binary64 x = x := by
  rw [binary64, h, roundHalfEven_intCast, ← h, div_mul_cancel₀ _ (two_zpow_pos _).ne.symm]

theorem binary64_repr_lt (m u : ℤ) (hm : |m| < 2 ^ 53) (hu : -1074 ≤ u) :
    binary64 ((m : ℚ) * 2 ^ u) = (m : ℚ) * 2 ^ u := by
  rcases eq_or_ne m 0 with rfl | hm0
  · simp [binary64_zero]
  have hne : (m : ℚ) * 2 ^ u ≠ 0 :=
    mul_ne_zero (by exact_mod_cast hm0) (two_zpow_pos u).ne.symm
  have hlt : |(m : ℚ) * 2 ^ u| < 2 ^ ((u + 52) + 1) := by
    rw [abs_mul, abs_of_pos (two_zpow_pos u), show u + 52 + 1 = 53 + u by ring,
      zpow_add₀ (by norm_num : (2 : ℚ) ≠ 0)]
    apply mul_lt_mul_of_pos_right _ (two_zpow_pos u)
    have : ((|m| : ℤ) : ℚ) < ((2 ^ 53 : ℤ) : ℚ) := by exact_mod_cast hm
    norm_num at this ⊢
    exact this
  have hle : ulpExp ((m : ℚ) * 2 ^ u) ≤ u := by
    have := ulpExp_le_of_lt hne hlt (by omega)
    omega
  obtain ⟨k, hk⟩ : ∃ k : ℕ, u = ulpExp ((m : ℚ) * 2 ^ u) + k :=
    ⟨(u - ulpExp ((m : ℚ) * 2 ^ u)).toNat, by omega⟩
  apply binary64_of_int_ulps (m := m * 2 ^ k)
  rw [mul_div_assoc, ← zpow_sub₀ (by norm_num : (2 : ℚ) ≠ 0)]
  have : u - ulpExp ((m : ℚ) * 2 ^ u) = (k : ℤ) := by omega
  rw [this, zpow_natCast]; push_cast; ring

theorem binary64_repr (m u : ℤ) (hm : |m| ≤ 2 ^ 53) (hu : -1074 ≤ u) :
    binary64 ((m : ℚ) * 2 ^ u) = (m : ℚ) * 2 ^ u := by
  rcases hm.lt_or_eq with h | h
  · exact binary64_repr_lt m u h hu
  · have hs : m = 2 ^ 53 ∨ m = -2 ^ 53 := by
      rcases abs_cases m with ⟨h1, _⟩ | ⟨h1, _⟩ <;> omega
    rcases hs with rfl | rfl
    · have e : (((2 ^ 53 : ℤ) : ℤ) : ℚ) * 2 ^ u = (((2 ^ 52 : ℤ) : ℤ) : ℚ) * 2 ^ (u + 1) := by
        rw [zpow_add₀ (by norm_num : (2 : ℚ) ≠ 0)]; push_cast; ring
      rw [e]; exact binary64_repr_lt (2 ^ 52) (u + 1) (by norm_num) (by omega)
    · have e : (((-2 ^ 53 : ℤ) : ℤ) : ℚ) * 2 ^ u = (((-2 ^ 52 : ℤ) : ℤ) : ℚ) * 2 ^ (u + 1) := by
        rw [zpow_add₀ (by norm_num : (2 : ℚ) ≠ 0)]; push_cast; ring
      rw [e]; exact binary64_repr_lt (-2 ^ 52) (u + 1) (by norm_num) (by omega)

/-- Every integer of magnitude at most `2 ^ 53` is a binary64 number. -/
theorem binary64_intCast (z : ℤ) (hz : |z| ≤ 2 ^ 53) : binary64 (z : ℚ) = z := by
  simpa using binary64_repr z 0 hz (by norm_num)

theorem roundHalfEven_ulps_bound (x : ℚ) : |roundHalfEven (x / 2 ^ ulpExp x)| ≤ 2 ^ 53 := by
  have h := abs_lt_zpow_ulpExp x
  rw [zpow_add₀ (by norm_num : (2 : ℚ) ≠ 0), mul_comm] at h
  have h' : |x| / 2 ^ ulpExp x < 2 ^ (53 : ℤ) := (div_lt_iff₀ (two_zpow_pos _)).mpr h
  have hab : |x / 2 ^ ulpExp x| < 2 ^ (53 : ℤ) := by
    rwa [abs_div, abs_of_pos (two_zpow_pos (ulpExp x))]
  have hab2 := abs_lt.mp hab
  rw [abs_le]
  constructor
  · apply le_roundHalfEven
    have := hab2.1.le
    norm_num at this ⊢; linarith
  · apply roundHalfEven_le
    have := hab2.2.le
    norm_num at this ⊢; linarith

/-- Rounding is idempotent: the result of a rounding is a binary64 number. -/
theorem binary64_idem (x : ℚ) : binary64 (binary64 x) = binary64 x := by
  simp only [binary64]
  exact binary64_repr _ _ (roundHalfEven_ulps_bound x) (ulpExp_ge x)

theorem ulpExp_mono {x y : ℚ} (hx : 0 < x) (h : x ≤ y) : ulpExp x ≤ ulpExp y := by
  have h1 : Int.log 2 |x| ≤ Int.log 2 |y| := by
    apply Int.log_mono_right (abs_pos.mpr hx.ne.symm)
    rwa [abs_of_pos hx, abs_of_pos (lt_of_lt_of_le hx h)]
  simp only [ulpExp]; omega

theorem binary64_le_zpow (x : ℚ) : binary64 x ≤ 2 ^ (ulpExp x + 53) := by
  have h := (abs_le.mp (roundHalfEven_ulps_bound x)).2
  have h' : (roundHalfEven (x / 2 ^ ulpExp x) : ℚ) ≤ 2 ^ (53 : ℤ) := by
    have : (roundHalfEven (x / 2 ^ ulpExp x) : ℚ) ≤ ((2 ^ 53 : ℤ) : ℚ) := by exact_mod_cast h
    norm_num at this ⊢; exact this
  rw [binary64, zpow_add₀ (by norm_num : (2 : ℚ) ≠ 0), mul_comm ((2 : ℚ) ^ ulpExp x)]
  exact mul_le_mul_of_nonneg_right h' (two_zpow_pos _).le

theorem zpow_le_binary64 {y : ℚ} (hy : 0 < y) (h : -1074 < ulpExp y) :
    2 ^ (ulpExp y + 52) ≤ binary64 y := by
  have hlog : ulpExp y + 52 = Int.log 2 |y| := by
    simp only [ulpExp] at h ⊢; omega
  have h1 : (2 : ℚ) ^ (ulpExp y + 52) ≤ y := by
    have := Int.zpow_log_le_self (R := ℚ) (b := 2) (by norm_num) (abs_pos.mpr hy.ne.symm)
    rw [hlog]
    simpa [abs_of_pos hy] using this
  have h2 : (((2 ^ 52 : ℤ) : ℤ) : ℚ) ≤ y / 2 ^ ulpExp y := by
    rw [le_div_iff₀ (two_zpow_pos _)]
    rw [zpow_add₀ (by norm_num : (2 : ℚ) ≠ 0), mul_comm] at h1
    norm_num at h1 ⊢; exact h1
  have h3 : (((2 ^ 52 : ℤ) : ℤ) : ℚ) ≤ roundHalfEven (y / 2 ^ ulpExp y) := by
    exact_mod_cast le_roundHalfEven h2
  rw [binary64, zpow_add₀ (by norm_num : (2 : ℚ) ≠ 0), mul_comm ((2 : ℚ) ^ ulpExp y)]
  have := mul_le_mul_of_nonneg_right h3 (two_zpow_pos (ulpExp y)).le
  norm_num at this ⊢; exact this

/-- Rounding is monotone on the non-negative rationals. -/
theorem binary64_mono {x y : ℚ} (hx : 0 ≤ x) (h : x ≤ y) : binary64 x ≤ binary64 y := by
  rcases hx.lt_or_eq with hpos | h0
  · have hy : 0 < y := lt_of_lt_of_le hpos h
    rcases (ulpExp_mono hpos h).lt_or_eq with hlt | heq
    · calc binary64 x ≤ 2 ^ (ulpExp x + 53) := binary64_le_zpow x
        _ ≤ 2 ^ (ulpExp y + 52) := zpow_le_zpow_right₀ (by norm_num) (by omega)
        _ ≤ binary64 y := zpow_le_binary64 hy (by have := ulpExp_ge x; omega)
    · simp only [binary64, heq]
      apply mul_le_mul_of_nonneg_right _ (two_zpow_pos _).le
      have : x / 2 ^ ulpExp y ≤ y / 2 ^ ulpExp y :=
        div_le_div_of_nonneg_right h (two_zpow_pos _).le
      exact_mod_cast roundHalfEven_mono this
  · rw [← h0, binary64_zero]
    exact binary64_nonneg (h0 ▸ h)

/-- Value of a rounding, from the binade of the argument. -/
theorem binary64_eq_of_bounds {x : ℚ} (e : ℤ) (h1 : 2 ^ e ≤ |x|) (h2 : |x| < 2 ^ (e + 1))
    (he : -1022 ≤ e) : binary64 x = roundHalfEven (x / 2 ^ (e - 52)) * 2 ^ (e - 52) := by
  rw [binary64, ulpExp_eq_of_bounds h1 h2 he]

/-! ## The loop in binary64 arithmetic -/

/-- The accumulator of the loop never decreases, stays non-negative and stays
a binary64 number. -/
theorem loopBody_binary64_inv {s : ℚ} (hs : 0 ≤ s) (hfix : binary64 s = s) (i : ℤ) :
    s ≤ loopBody binary64 s i ∧ binary64 (loopBody binary64 s i) = loopBody binary64 s i := by
  refine ⟨?_, binary64_idem _⟩
  have ht : 0 ≤ binary64 (binary64 (i : ℚ) * binary64 (i : ℚ)) :=
    binary64_nonneg (mul_self_nonneg _)
  calc s = binary64 s := hfix.symm
    _ ≤ loopBody binary64 s i := binary64_mono hs (by linarith)

theorem forLoop_binary64_inv (lo : ℤ) (k : ℕ) {s : ℚ} (hs : 0 ≤ s) (hfix : binary64 s = s) :
    s ≤ forLoop binary64 lo (lo + k) s ∧
      binary64 (forLoop binary64 lo (lo + k) s) = forLoop binary64 lo (lo + k) s := by
  induction k with
  | zero => simp [forLoop_of_le, hfix]
  | succ k ih =>
    have e : lo + ((k + 1 : ℕ) : ℤ) = (lo + k) + 1 := by push_cast; ring
    rw [e, forLoop_succ binary64 (by omega)]
    have := loopBody_binary64_inv (le_trans hs ih.1) ih.2 (lo + k)
    exact ⟨le_trans ih.1 this.1, this.2⟩

theorem forLoop_binary64_ge (lo hi : ℤ) {s : ℚ} (hs : 0 ≤ s) (hfix : binary64 s = s) :
    s ≤ forLoop binary64 lo hi s := by
  rcases le_total hi lo with h | h
  · rw [forLoop_of_le _ h]
  · have := (forLoop_binary64_inv lo (hi - lo).toNat hs hfix).1
    have e : lo + (((hi - lo).toNat : ℕ) : ℤ) = hi := by omega
    rwa [e] at this

theorem forLoop_binary64_fix (lo hi : ℤ) {s : ℚ} (hs : 0 ≤ s) (hfix : binary64 s = s) :
    binary64 (forLoop binary64 lo hi s) = forLoop binary64 lo hi s := by
  rcases le_total hi lo with h | h
  · rw [forLoop_of_le _ h, hfix]
  · have := (forLoop_binary64_inv lo (hi - lo).toNat hs hfix).2
    have e : lo + (((hi - lo).toNat : ℕ) : ℤ) = hi := by omega
    rwa [e] at this

/-- The accumulator after the loop is monotone in the bound of the loop. -/
theorem forLoop_binary64_mono {n1 n2 : ℤ} (h : n1 ≤ n2) :
    forLoop binary64 0 n1 0 ≤ forLoop binary64 0 n2 0 := by
  rcases le_total n1 0 with h1 | h1
  · rw [forLoop_of_le _ h1]
    exact forLoop_binary64_ge 0 n2 le_rfl binary64_zero
  · have e : n2 = n1 + (((n2 - n1).toNat : ℕ) : ℤ) := by omega
    rw [e, forLoop_split binary64 h1, ← e]
    exact forLoop_binary64_ge n1 n2 (forLoop_binary64_ge 0 n1 le_rfl binary64_zero)
      (forLoop_binary64_fix 0 n1 le_rfl binary64_zero)

theorem sumSq_succ (lo : ℤ) (k : ℕ) : sumSq lo (k + 1) = sumSq lo k + (lo + k) ^ 2 := by
  simp [sumSq, Finset.sum_range_succ]

theorem sumSq_nonneg (lo : ℤ) (k : ℕ) : 0 ≤ sumSq lo k :=
  Finset.sum_nonneg (fun _ _ => sq_nonneg _)

theorem sumSq_cast (lo : ℤ) (k : ℕ) :
    ((sumSq lo k : ℤ) : ℚ) = closedForm (lo + k) - closedForm lo := by
  induction k with
  | zero => simp [sumSq]
  | succ k ih =>
    have e : lo + ((k + 1 : ℕ) : ℤ) = (lo + k) + 1 := by push_cast; ring
    rw [sumSq_succ, e, closedForm_succ]; push_cast; rw [ih]; ring

theorem int_abs_le_sq (a : ℤ) : |a| ≤ a ^ 2 := by
  rcases abs_cases a with ⟨h, _⟩ | ⟨h, _⟩ <;> rw [h] <;> nlinarith

/-- One iteration on integer values that fit in 53 bits is exact. -/
theorem loopBody_binary64_int (acc i : ℤ) (h0 : 0 ≤ acc) (h : acc + i ^ 2 ≤ 2 ^ 53) :
    loopBody binary64 (acc : ℚ) i = ((acc + i ^ 2 : ℤ) : ℚ) := by
  have hsq : 0 ≤ i ^ 2 := sq_nonneg i
  have hi : |i| ≤ 2 ^ 53 := le_trans (int_abs_le_sq i) (by omega)
  have h2 : |i ^ 2| ≤ 2 ^ 53 := by rw [abs_of_nonneg hsq]; omega
  have h3 : |acc + i ^ 2| ≤ 2 ^ 53 := by rw [abs_of_nonneg (by omega)]; exact h
  have e1 : ((i : ℚ)) * (i : ℚ) = ((i ^ 2 : ℤ) : ℚ) := by push_cast; ring
  have e2 : (acc : ℚ) + ((i ^ 2 : ℤ) : ℚ) = ((acc + i ^ 2 : ℤ) : ℚ) := by push_cast; ring
  simp only [loopBody]
  rw [binary64_intCast i hi, e1, binary64_intCast _ h2, e2, binary64_intCast _ h3]

/-- A run of the loop whose sums fit in 53 bits is exact. -/
theorem forLoop_binary64_exact (lo : ℤ) (k : ℕ) (s : ℤ) (h0 : 0 ≤ s)
    (h : s + sumSq lo k ≤ 2 ^ 53) :
    forLoop binary64 lo (lo + k) (s : ℚ) = ((s + sumSq lo k : ℤ) : ℚ) := by
  induction k with
  | zero => simp [forLoop_of_le, sumSq]
  | succ k ih =>
    have e : lo + ((k + 1 : ℕ) : ℤ) = (lo + k) + 1 := by push_cast; ring
    have hk := sumSq_succ lo k
    have hn := sumSq_nonneg lo k
    have hsq : 0 ≤ (lo + k) ^ 2 := sq_nonneg _
    rw [e, forLoop_succ binary64 (by omega), ih (by omega),
      loopBody_binary64_int _ _ (by omega) (by omega), hk, add_assoc]

theorem loopBody_binary64_sq (acc : ℚ) (i : ℤ) (h : i ^ 2 ≤ 2 ^ 53) :
    loopBody binary64 acc i = binary64 (acc + ((i ^ 2 : ℤ) : ℚ)) := by
  have hsq : 0 ≤ i ^ 2 := sq_nonneg i
  have hi : |i| ≤ 2 ^ 53 := le_trans (int_abs_le_sq i) h
  have h2 : |i ^ 2| ≤ 2 ^ 53 := by rw [abs_of_nonneg hsq]; exact h
  have e1 : ((i : ℚ)) * (i : ℚ) = ((i ^ 2 : ℤ) : ℚ) := by push_cast; ring
  simp only [loopBody]
  rw [binary64_intCast i hi, e1, binary64_intCast _ h2]

theorem sumSq_eq (lo : ℤ) (k : ℕ) (v : ℤ) (h : closedForm (lo + k) - closedForm lo = v) :
    sumSq lo k = v := by
  have := sumSq_cast lo k
  rw [h] at this
  exact_mod_cast this

theorem forLoop_binary64_chunk (lo : ℤ) (k : ℕ) (v : ℤ)
    (h : closedForm (lo + k) - closedForm lo = v) (hv : v ≤ 2 ^ 53) :
    forLoop binary64 lo (lo + k) 0 = v := by
  have e := sumSq_eq lo k v h
  have := forLoop_binary64_exact lo k 0 le_rfl (by omega)
  simpa [e] using this

/-! ## Concrete runs -/

theorem s2_binary64 : s2 binary64 = 4722366482869645 / 2 ^ 72 := by
  rw [s2, binary64_eq_of_bounds (-20) (by norm_num [abs_of_pos]) (by norm_num [abs_of_pos])
    (by norm_num)]
  norm_num [roundHalfEven]

theorem seq_acc_300080 : forLoop binary64 0 300080 0 = 9007156896217480 := by
  have := forLoop_binary64_chunk 0 300080 9007156896217480 (by norm_num [closedForm])
    (by norm_num)
  simpa using this

theorem seq_acc_300084 : forLoop binary64 0 300084 0 = 9007517091844052 := by
  have step : ∀ (hi : ℤ) (a b : ℚ), 0 ≤ hi → hi ^ 2 ≤ 2 ^ 53 →
      forLoop binary64 0 hi 0 = a → binary64 (a + ((hi ^ 2 : ℤ) : ℚ)) = b →
      forLoop binary64 0 (hi + 1) 0 = b := by
    intro hi a b h0 h1 h2 h3
    rw [forLoop_succ binary64 h0, h2, loopBody_binary64_sq _ _ h1, h3]
  have a1 := step 300080 _ 9007246944223880 (by norm_num) (by norm_num) seq_acc_300080 (by
    rw [binary64_eq_of_bounds 53 (by norm_num [abs_of_pos]) (by norm_num [abs_of_pos])
      (by norm_num)]
    norm_num [roundHalfEven])
  have a2 := step 300081 _ 9007336992830440 (by norm_num) (by norm_num) a1 (by
    rw [binary64_eq_of_bounds 53 (by norm_num [abs_of_pos]) (by norm_num [abs_of_pos])
      (by norm_num)]
    norm_num [roundHalfEven])
  have a3 := step 300082 _ 9007427042037164 (by norm_num) (by norm_num) a2 (by
    rw [binary64_eq_of_bounds 53 (by norm_num [abs_of_pos]) (by norm_num [abs_of_pos])
      (by norm_num)]
    norm_num [roundHalfEven])
  have a4 := step 300083 _ 9007517091844052 (by norm_num) (by norm_num) a3 (by
    rw [binary64_eq_of_bounds 53 (by norm_num [abs_of_pos]) (by norm_num [abs_of_pos])
      (by norm_num)]
    norm_num [roundHalfEven])
  exact a4

/-! ## Calls with an empty index range -/

theorem staticChunk_of_nonpos {n : ℤ} (h : n ≤ 0) (T t : ℕ) : staticChunk n T t = (0, 0) := by
  have : max n 0 = 0 := max_eq_right h
  simp [staticChunk, this]

theorem privateSum_of_nonpos (fl : ℚ → ℚ) {n : ℤ} (h : n ≤ 0) (T t : ℕ) :
    privateSum fl n T t = 0 := by
  simp [privateSum, staticChunk_of_nonpos h, forLoop_of_le]

theorem reduceAdd_binary64_zeros (order : List ℕ) :
    reduceAdd binary64 0 (order.map (fun _ => (0 : ℚ))) = 0 := by
  induction order with
  | nil => rfl
  | cons t ts ih =>
    have : reduceAdd binary64 0 ((t :: ts).map (fun _ => (0 : ℚ))) =
        reduceAdd binary64 (binary64 (0 + 0)) (ts.map (fun _ => (0 : ℚ))) := rfl
    rw [this, add_zero, binary64_zero, ih]

theorem heavy_compute_cpp_of_nonpos {n : ℤ} (h : n ≤ 0) : heavy_compute_cpp binary64 n = 0 := by
  simp [heavy_compute_cpp, forLoop_of_le _ h, binary64_zero]

theorem parallel_of_nonpos {n : ℤ} (h : n ≤ 0) (order : List ℕ) (env : OmpEnv) (k : ℤ) :
    (heavy_compute_cpp_parallel binary64 order env n k).1 = 0 := by
  have e : privateSum binary64 n (applyNumThreads env k).nthreads = fun _ => (0 : ℚ) :=
    funext (privateSum_of_nonpos binary64 h _)
  simp only [heavy_compute_cpp_parallel, e, reduceAdd_binary64_zeros, mul_zero, binary64_zero]

theorem sumSq_mono (lo : ℤ) {j k : ℕ} (h : j ≤ k) : sumSq lo j ≤ sumSq lo k :=
  Finset.sum_le_sum_of_subset_of_nonneg (Finset.range_mono h) (fun _ _ _ => sq_nonneg _)

theorem forLoop_binary64_small (n : ℤ) (h0 : 0 ≤ n) (h : n ≤ 300080) :
    forLoop binary64 0 n 0 = closedForm n := by
  have hk : n.toNat ≤ 300080 := by omega
  have hb : sumSq 0 300080 = 9007156896217480 :=
    sumSq_eq 0 300080 9007156896217480 (by norm_num [closedForm])
  have hle : sumSq 0 n.toNat ≤ 2 ^ 53 := by
    have := sumSq_mono 0 hk
    rw [hb] at this
    exact le_trans this (by norm_num)
  have e : (0 : ℤ) + ((n.toNat : ℕ) : ℤ) = n := by omega
  have := forLoop_binary64_exact 0 n.toNat 0 le_rfl (by omega)
  rw [e] at this
  have c := sumSq_cast 0 n.toNat
  rw [e, closedForm_zero, sub_zero] at c
  rw [← c]
  simpa using this

theorem seq_value_300084 : heavy_compute_cpp binary64 300084 = 2361266560524367 / 262144 := by
  rw [heavy_compute_cpp, seq_acc_300084, s2_binary64,
    binary64_eq_of_bounds 33 (by norm_num [abs_of_pos]) (by norm_num [abs_of_pos]) (by norm_num)]
  norm_num [roundHalfEven]

theorem scaled_closed_form_300084 :
    binary64 (s2 binary64 * 9007517091844054) = 4722533121048735 / 524288 := by
  rw [s2_binary64,
    binary64_eq_of_bounds 33 (by norm_num [abs_of_pos]) (by norm_num [abs_of_pos]) (by norm_num)]
  norm_num [roundHalfEven]

theorem seq_acc_5 : forLoop binary64 0 5 0 = 30 := by
  have := forLoop_binary64_chunk 0 5 30 (by norm_num [closedForm]) (by norm_num)
  simpa using this

theorem seq_value_5 : heavy_compute_cpp binary64 5 = 1106804644422573 / 2 ^ 65 := by
  rw [heavy_compute_cpp, seq_acc_5, s2_binary64,
    binary64_eq_of_bounds (-16) (by norm_num [abs_of_pos]) (by norm_num [abs_of_pos])
      (by norm_num)]
  norm_num [roundHalfEven]

theorem literal_3e5 : binary64 (3 / 100000) = 8854437155380585 / 2 ^ 68 := by
  rw [binary64_eq_of_bounds (-16) (by norm_num [abs_of_pos]) (by norm_num [abs_of_pos])
    (by norm_num)]
  norm_num [roundHalfEven]

/-! ## Concrete parallel runs -/

theorem binary64_lit (z : ℤ) (q : ℚ) (hz : |z| ≤ 2 ^ 53) (hq : (z : ℚ) = q) : binary64 q = q := by
  rw [← hq]; exact binary64_intCast z hz

theorem privateSum_eq (n : ℤ) (T t : ℕ) (lo : ℤ) (k : ℕ) (v : ℤ)
    (hc : staticChunk n T t = (lo, lo + k))
    (h : closedForm (lo + k) - closedForm lo = v) (hv : v ≤ 2 ^ 53) :
    privateSum binary64 n T t = v := by
  rw [privateSum, hc]
  exact forLoop_binary64_chunk lo k v h hv

theorem reduceAdd_one (fl : ℚ → ℚ) (f : ℕ → ℚ) (a : ℕ) :
    reduceAdd fl 0 ([a].map f) = fl (0 + f a) := rfl

theorem reduceAdd_two (fl : ℚ → ℚ) (f : ℕ → ℚ) (a b : ℕ) :
    reduceAdd fl 0 ([a, b].map f) = fl (fl (0 + f a) + f b) := rfl

theorem reduceAdd_three (fl : ℚ → ℚ) (f : ℕ → ℚ) (a b c : ℕ) :
    reduceAdd fl 0 ([a, b, c].map f) = fl (fl (fl (0 + f a) + f b) + f c) := rfl

theorem team_one_300084 :
    binary64 (s2 binary64 * reduceAdd binary64 0 ([0].map (privateSum binary64 300084 1))) =
      2361266560524367 / 262144 := by
  have hc : staticChunk 300084 1 0 = (0, 300084) := by norm_num [staticChunk]
  have hp : privateSum binary64 300084 1 0 = 9007517091844052 := by
    rw [privateSum, hc]; exact seq_acc_300084
  have h1 : binary64 (0 + 9007517091844052) = 9007517091844052 := by
    rw [binary64_eq_of_bounds 53 (by norm_num [abs_of_pos]) (by norm_num [abs_of_pos])
      (by norm_num)]
    norm_num [roundHalfEven]
  have hr : reduceAdd binary64 0 ([0].map (privateSum binary64 300084 1)) =
      9007517091844052 := by
    rw [reduceAdd_one, hp, h1]
  rw [hr]
  have := seq_value_300084
  rwa [heavy_compute_cpp, seq_acc_300084] at this

theorem team_two_300084 :
    binary64 (s2 binary64 * reduceAdd binary64 0 ([0, 1].map (privateSum binary64 300084 2))) =
      4722533121048735 / 524288 := by
  have hp0 : privateSum binary64 300084 2 0 = 1125934008348821 := by
    have := privateSum_eq 300084 2 0 0 150042 1125934008348821 (by norm_num [staticChunk])
      (by norm_num [closedForm]) (by norm_num)
    exact_mod_cast this
  have hp1 : privateSum binary64 300084 2 1 = 7881583083495233 := by
    have := privateSum_eq 300084 2 1 150042 150042 7881583083495233 (by norm_num [staticChunk])
      (by norm_num [closedForm]) (by norm_num)
    exact_mod_cast this
  have h1 : binary64 (0 + 1125934008348821) = 1125934008348821 :=
    by rw [zero_add]; exact binary64_lit 1125934008348821 _ (by norm_num) (by norm_num)
  have h2 : binary64 (1125934008348821 + 7881583083495233) = 9007517091844054 := by
    rw [binary64_eq_of_bounds 53 (by norm_num [abs_of_pos]) (by norm_num [abs_of_pos])
      (by norm_num)]
    norm_num [roundHalfEven]
  have hr : reduceAdd binary64 0 ([0, 1].map (privateSum binary64 300084 2)) =
      9007517091844054 := by
    rw [reduceAdd_two, hp0, hp1, h1, h2]
  rw [hr]
  exact scaled_closed_form_300084

theorem privateSums_303884 :
    privateSum binary64 303884 3 0 = 346446629427495 ∧
    privateSum binary64 303884 3 1 = 2425146927245220 ∧
    privateSum binary64 303884 3 2 = 6582465438072239 := by
  have hp0 := privateSum_eq 303884 3 0 0 101295 346446629427495 (by norm_num [staticChunk])
    (by norm_num [closedForm]) (by norm_num)
  have hp1 := privateSum_eq 303884 3 1 101295 101295 2425146927245220
    (by norm_num [staticChunk]) (by norm_num [closedForm]) (by norm_num)
  have hp2 := privateSum_eq 303884 3 2 202590 101294 6582465438072239
    (by norm_num [staticChunk]) (by norm_num [closedForm]) (by norm_num)
  exact ⟨by exact_mod_cast hp0, by exact_mod_cast hp1, by exact_mod_cast hp2⟩

theorem team_three_303884_in_order :
    binary64 (s2 binary64 *
      reduceAdd binary64 0 ([0, 1, 2].map (privateSum binary64 303884 3))) =
      2452110441118421 / 262144 := by
  obtain ⟨hp0, hp1, hp2⟩ := privateSums_303884
  have h1 : binary64 (0 + 346446629427495) = 346446629427495 := by
    rw [zero_add]; exact binary64_lit 346446629427495 _ (by norm_num) (by norm_num)
  have h2 : binary64 (346446629427495 + 2425146927245220) = 2771593556672715 := by
    rw [show (346446629427495 + 2425146927245220 : ℚ) = 2771593556672715 by norm_num]
    exact binary64_lit 2771593556672715 _ (by norm_num) (by norm_num)
  have h3 : binary64 (2771593556672715 + 6582465438072239) = 9354058994744954 := by
    rw [binary64_eq_of_bounds 53 (by norm_num [abs_of_pos]) (by norm_num [abs_of_pos])
      (by norm_num)]
    norm_num [roundHalfEven]
  rw [reduceAdd_three, hp0, hp1, hp2, h1, h2, h3, s2_binary64,
    binary64_eq_of_bounds 33 (by norm_num [abs_of_pos]) (by norm_num [abs_of_pos]) (by norm_num)]
  norm_num [roundHalfEven]

theorem team_three_303884_rotated :
    binary64 (s2 binary64 *
      reduceAdd binary64 0 ([1, 2, 0].map (privateSum binary64 303884 3))) =
      4904220882236843 / 524288 := by
  obtain ⟨hp0, hp1, hp2⟩ := privateSums_303884
  have h1 : binary64 (0 + 2425146927245220) = 2425146927245220 := by
    rw [zero_add]; exact binary64_lit 2425146927245220 _ (by norm_num) (by norm_num)
  have h2 : binary64 (2425146927245220 + 6582465438072239) = 9007612365317460 := by
    rw [binary64_eq_of_bounds 53 (by norm_num [abs_of_pos]) (by norm_num [abs_of_pos])
      (by norm_num)]
    norm_num [roundHalfEven]
  have h3 : binary64 (9007612365317460 + 346446629427495) = 9354058994744956 := by
    rw [binary64_eq_of_bounds 53 (by norm_num [abs_of_pos]) (by norm_num [abs_of_pos])
      (by norm_num)]
    norm_num [roundHalfEven]
  rw [reduceAdd_three, hp0, hp1, hp2, h1, h2, h3, s2_binary64,
    binary64_eq_of_bounds 33 (by norm_num [abs_of_pos]) (by norm_num [abs_of_pos]) (by norm_num)]
  norm_num [roundHalfEven]

/-! ## The runtime state across calls -/

theorem applyNumThreads_pos (env : OmpEnv) {k : ℤ} (h : 0 < k) :
    (applyNumThreads env k).nthreads = k.toNat := by
  simp [applyNumThreads, h, omp_set_num_threads]

theorem applyNumThreads_nonpos (env : OmpEnv) {k : ℤ} (h : k ≤ 0) :
    applyNumThreads env k = env := by
  simp [applyNumThreads, not_lt.mpr h]

theorem parallel_fst (fl : ℚ → ℚ) (order : List ℕ) (env : OmpEnv) (n k : ℤ) :
    (heavy_compute_cpp_parallel fl order env n k).1 =
      fl (s2 fl * reduceAdd fl 0
        (order.map (privateSum fl n (heavy_compute_cpp_parallel fl order env n k).2.nthreads))) :=
  rfl

theorem parallel_snd (fl : ℚ → ℚ) (order : List ℕ) (env : OmpEnv) (n k : ℤ) :
    (heavy_compute_cpp_parallel fl order env n k).2 = applyNumThreads env k := rfl

theorem runCalls_getElem (fl : ℚ → ℚ) (calls : List Call) :
    ∀ (env : OmpEnv) (i : ℕ) (c : Call) (r : ℚ × OmpEnv), calls[i]? = some c →
      (runCalls fl env calls)[i]? = some r →
      ∃ env1, r = heavy_compute_cpp_parallel fl c.order env1 c.n c.num_threads := by
  induction calls with
  | nil => intro env i c r hc; simp at hc
  | cons d ds ih =>
    intro env i c r hc hr
    cases i with
    | zero =>
      simp only [runCalls, List.getElem?_cons_zero, Option.some.injEq] at hc hr
      subst hc; exact ⟨env, hr.symm⟩
    | succ i =>
      simp only [runCalls, List.getElem?_cons_succ] at hc hr
      exact ih _ i c r hc hr

theorem runCalls_frame (fl : ℚ → ℚ) (calls : List Call) :
    ∀ (env : OmpEnv), (∀ c ∈ calls, c.num_threads ≤ 0) →
      ∀ r ∈ runCalls fl env calls, r.2 = env := by
  induction calls with
  | nil => intro env _ r hr; simp [runCalls] at hr
  | cons d ds ih =>
    intro env h r hr
    have hd : d.num_threads ≤ 0 := h d (List.mem_cons_self _ _)
    have he : (heavy_compute_cpp_parallel fl d.order env d.n d.num_threads).2 = env := by
      rw [parallel_snd, applyNumThreads_nonpos env hd]
    simp only [runCalls, List.mem_cons] at hr
    rcases hr with rfl | hr
    · exact he
    · rw [he] at hr
      exact ih env (fun c hc => h c (List.mem_cons_of_mem _ hc)) r hr

/-! ## The loop, trip by trip -/

theorem loopAfter_running (fl : ℚ → ℚ) {n : ℤ} (hn : n ≤ INT64_MAX) (k : ℕ)
    (hk : (k : ℤ) ≤ max n 0) :
    loopAfter fl n k = LoopOutcome.running ⟨k, k, forLoop fl 0 k 0⟩ := by
  induction k with
  | zero => simp [loopAfter, forLoop_of_le]
  | succ k ih =>
    have hlt : (k : ℤ) < n := by
      push_cast at hk
      rcases le_max_iff.mp hk with h | h <;> omega
    have hne : (k : ℤ) ≠ INT64_MAX := by omega
    have hs := forLoop_succ fl (Int.natCast_nonneg k) 0
    rw [loopAfter, ih (by push_cast at hk; omega)]
    simp only [loopStep, if_pos hlt, if_neg hne]
    push_cast
    rw [hs]

theorem loopAfter_finished (fl : ℚ → ℚ) {n : ℤ} (hn : n ≤ INT64_MAX) (j : ℕ) :
    loopAfter fl n ((max n 0).toNat + 1 + j) =
      LoopOutcome.finished ⟨(max n 0).toNat, max n 0, forLoop fl 0 n 0⟩ := by
  induction j with
  | zero =>
    have hk : (((max n 0).toNat : ℕ) : ℤ) = max n 0 := Int.toNat_of_nonneg (le_max_right n 0)
    have hnot : ¬ max n 0 < n := not_lt.mpr (le_max_left n 0)
    have hf : forLoop fl 0 (max n 0) 0 = forLoop fl 0 n 0 := by
      rcases le_total 0 n with h | h
      · rw [max_eq_left h]
      · rw [max_eq_right h, forLoop_of_le fl h, forLoop_of_le fl le_rfl]
    rw [add_zero, loopAfter, loopAfter_running fl hn _ (by rw [hk])]
    simp only [loopStep, hk, if_neg hnot, hf]
  | succ j ih =>
    rw [← add_assoc, loopAfter, ih]

theorem heavy_compute_cpp_one : heavy_compute_cpp binary64 1 = 0 := by
  have h1 := forLoop_succ binary64 (le_refl (0 : ℤ)) 0
  rw [forLoop_of_le binary64 (le_refl (0 : ℤ)), zero_add] at h1
  have h2 : loopBody binary64 0 0 = 0 := by simp [loopBody, binary64_zero]
  rw [heavy_compute_cpp, h1, h2, mul_zero, binary64_zero]

theorem s2_binary64_pos : 0 < s2 binary64 := by
  rw [s2_binary64]; norm_num

theorem heavy_compute_cpp_nonneg (n : ℤ) : 0 ≤ heavy_compute_cpp binary64 n :=
  binary64_nonneg (mul_nonneg s2_binary64_pos.le
    (forLoop_binary64_ge 0 n le_rfl binary64_zero))

theorem heavy_compute_cpp_pos {n : ℤ} (h : 2 ≤ n) : 0 < heavy_compute_cpp binary64 n := by
  have h2 : forLoop binary64 0 2 0 = 1 := by
    have := forLoop_binary64_chunk 0 2 1 (by norm_num [closedForm]) (by norm_num)
    simpa using this
  have hacc : 1 ≤ forLoop binary64 0 n 0 := h2 ▸ forLoop_binary64_mono h
  have hfix : binary64 (s2 binary64) = s2 binary64 := binary64_idem _
  have hle : s2 binary64 ≤ s2 binary64 * forLoop binary64 0 n 0 :=
    le_mul_of_one_le_right s2_binary64_pos.le hacc
  calc 0 < s2 binary64 := s2_binary64_pos
    _ = binary64 (s2 binary64) := hfix.symm
    _ ≤ heavy_compute_cpp binary64 n := binary64_mono s2_binary64_pos.le hle


/-! ## Sums that fit in 53 bits -/

theorem closedForm_eq_sumSq {n : ℤ} (h : 0 ≤ n) : closedForm n = ((sumSq 0 n.toNat : ℤ) : ℚ) := by
  have c := sumSq_cast 0 n.toNat
  have e : (0 : ℤ) + ((n.toNat : ℕ) : ℤ) = n := by omega
  rw [e, closedForm_zero, sub_zero] at c
  exact c.symm

theorem sumSq_zero_le {n : ℤ} (h : n ≤ 300080) : sumSq 0 n.toNat ≤ 2 ^ 53 := by
  have hk : n.toNat ≤ 300080 := by omega
  have hb : sumSq 0 300080 = 9007156896217480 :=
    sumSq_eq 0 300080 9007156896217480 (by norm_num [closedForm])
  have := sumSq_mono 0 hk
  rw [hb] at this
  exact le_trans this (by norm_num)

/-- A sum over a sub-range is at most the sum over the whole range. -/
theorem sumSq_le_of_range {lo n : ℤ} {k : ℕ} (h0 : 0 ≤ lo) (h : lo + k ≤ n) :
    sumSq lo k ≤ sumSq 0 n.toNat := by
  have h1 : sumSq lo k ≤ sumSq 0 (lo + k).toNat := by
    have a := sumSq_cast lo k
    have b := closedForm_eq_sumSq (n := lo + k) (by omega)
    have c := closedForm_eq_sumSq h0
    have d := sumSq_nonneg 0 lo.toNat
    have : ((sumSq lo k : ℤ) : ℚ) ≤ ((sumSq 0 (lo + k).toNat : ℤ) : ℚ) := by
      rw [a, b, c]
      have : (0 : ℚ) ≤ ((sumSq 0 lo.toNat : ℤ) : ℚ) := by exact_mod_cast d
      linarith
    exact_mod_cast this
  exact le_trans h1 (sumSq_mono 0 (by omega))

theorem forLoop_exact_sumSq (lo hi : ℤ) :
    forLoop exactArith lo hi 0 = ((sumSq lo (hi - lo).toNat : ℤ) : ℚ) := by
  rcases le_total hi lo with h | h
  · have e : (hi - lo).toNat = 0 := by omega
    rw [forLoop_of_le _ h, e]; simp [sumSq]
  · have e : lo + (((hi - lo).toNat : ℕ) : ℤ) = hi := by omega
    rw [forLoop_exact lo hi h, zero_add, sumSq_cast, e]

theorem forLoop_binary64_sumSq (lo hi : ℤ) (hb : sumSq lo (hi - lo).toNat ≤ 2 ^ 53) :
    forLoop binary64 lo hi 0 = ((sumSq lo (hi - lo).toNat : ℤ) : ℚ) := by
  rcases le_total hi lo with h | h
  · have e : (hi - lo).toNat = 0 := by omega
    rw [forLoop_of_le _ h, e]; simp [sumSq]
  · have e : lo + (((hi - lo).toNat : ℕ) : ℤ) = hi := by omega
    have := forLoop_binary64_exact lo (hi - lo).toNat 0 le_rfl (by omega)
    rw [e] at this
    simpa using this

/-- A loop whose exact sum fits in 53 bits gives that sum in double arithmetic. -/
theorem forLoop_binary64_eq_exact (lo hi : ℤ) (hb : forLoop exactArith lo hi 0 ≤ 2 ^ 53) :
    forLoop binary64 lo hi 0 = forLoop exactArith lo hi 0 := by
  rw [forLoop_exact_sumSq] at hb ⊢
  apply forLoop_binary64_sumSq
  have : ((sumSq lo (hi - lo).toNat : ℤ) : ℚ) ≤ (((2 : ℤ) ^ 53 : ℤ) : ℚ) := by
    push_cast; exact hb
  exact_mod_cast this

theorem forLoop_exact_isNat (lo hi : ℤ) : ∃ m : ℕ, forLoop exactArith lo hi 0 = m := by
  refine ⟨(sumSq lo (hi - lo).toNat).toNat, ?_⟩
  rw [forLoop_exact_sumSq]
  have := sumSq_nonneg lo (hi - lo).toNat
  have e : (((sumSq lo (hi - lo).toNat).toNat : ℕ) : ℤ) = sumSq lo (hi - lo).toNat :=
    Int.toNat_of_nonneg this
  exact_mod_cast congrArg (fun z : ℤ => (z : ℚ)) e.symm

theorem list_sum_nonneg_of_isNat (parts : List ℚ) (hp : ∀ p ∈ parts, ∃ m : ℕ, p = m) :
    0 ≤ parts.sum := by
  apply List.sum_nonneg
  intro p hpm
  obtain ⟨m, rfl⟩ := hp p hpm
  exact Nat.cast_nonneg m

/-- Adding up natural numbers whose total fits in 53 bits incurs no rounding. -/
theorem reduceAdd_binary64_exact (parts : List ℚ) :
    ∀ (init : ℚ), (∃ m : ℕ, init = m) → (∀ p ∈ parts, ∃ m : ℕ, p = m) →
      init + parts.sum ≤ 2 ^ 53 → reduceAdd binary64 init parts = init + parts.sum := by
  induction parts with
  | nil => intro init _ _ _; simp [reduceAdd]
  | cons p ps ih =>
    intro init hi hp hb
    obtain ⟨a, rfl⟩ := hi
    obtain ⟨b, rfl⟩ := hp p (List.mem_cons_self _ _)
    have hps : ∀ q ∈ ps, ∃ m : ℕ, q = m := fun q hq => hp q (List.mem_cons_of_mem _ hq)
    have h0 := list_sum_nonneg_of_isNat ps hps
    rw [List.sum_cons] at hb
    have hab : ((a : ℚ) + b) ≤ 2 ^ 53 := by linarith
    have hz : |((a + b : ℕ) : ℤ)| ≤ 2 ^ 53 := by
      rw [abs_of_nonneg (Int.natCast_nonneg _)]
      have : (((a + b : ℕ) : ℤ) : ℚ) ≤ (((2 : ℤ) ^ 53 : ℤ) : ℚ) := by push_cast; exact hab
      exact_mod_cast this
    have hfl : binary64 ((a : ℚ) + b) = (a : ℚ) + b := by
      have := binary64_intCast ((a + b : ℕ) : ℤ) hz
      push_cast at this
      exact this
    have hstep : reduceAdd binary64 (a : ℚ) ((b : ℚ) :: ps) =
        reduceAdd binary64 (binary64 ((a : ℚ) + b)) ps := rfl
    rw [hstep, hfl, ih ((a : ℚ) + b) ⟨a + b, by push_cast; rfl⟩ hps (by linarith),
      List.sum_cons]
    ring

/-- A reduction over pieces whose exact sums are natural numbers with a total
that fits in 53 bits gives the exact total in double arithmetic. -/
theorem reduce_binary64_eq_total {α : Type} (cs : List α) (fB fE : α → ℚ)
    (hnat : ∀ c ∈ cs, ∃ m : ℕ, fE c = m)
    (hB : ∀ c ∈ cs, fE c ≤ 2 ^ 53 → fB c = fE c)
    (htot : (cs.map fE).sum ≤ 2 ^ 53) :
    reduceAdd binary64 0 (cs.map fB) = (cs.map fE).sum := by
  have hnn : ∀ x ∈ cs.map fE, 0 ≤ x := by
    intro x hx
    obtain ⟨c, hc, rfl⟩ := List.mem_map.mp hx
    obtain ⟨m, hm⟩ := hnat c hc
    rw [hm]; exact Nat.cast_nonneg m
  have hle : ∀ c ∈ cs, fE c ≤ 2 ^ 53 := fun c hc =>
    le_trans (List.single_le_sum hnn _ (List.mem_map_of_mem fE hc)) htot
  have hmap : cs.map fB = cs.map fE :=
    List.map_congr_left (fun c hc => hB c hc (hle c hc))
  have hp : ∀ p ∈ cs.map fE, ∃ m : ℕ, p = m := by
    intro p hpm
    obtain ⟨c, hc, rfl⟩ := List.mem_map.mp hpm
    exact hnat c hc
  rw [hmap, reduceAdd_binary64_exact _ 0 ⟨0, by simp⟩ hp (by rw [zero_add]; exact htot),
    zero_add]

theorem privateSum_exact_total (n : ℤ) (T : ℕ) (hT : 0 < T) (order : List ℕ)
    (hp : order.Perm (List.range T)) :
    (order.map (privateSum exactArith n T)).sum = closedForm (max n 0) := by
  rw [(hp.map _).sum_eq, funext (privateSum_exact n T),
    list_sum_telescope (fun t => closedForm (staticStart n T t)), staticStart_zero,
    staticStart_team n T hT, closedForm_zero, sub_zero]

theorem chunks_exact_total (n : ℤ) (sizes : List ℕ) (hs : ((sizes.sum : ℕ) : ℤ) = n)
    (cs : List (ℤ × ℤ)) (hp : cs.Perm (chunksFrom 0 sizes)) :
    (cs.map (fun c => forLoop exactArith c.1 c.2 0)).sum = closedForm n := by
  rw [(hp.map _).sum_eq, chunksFrom_sum, zero_add, hs, closedForm_zero, sub_zero]

theorem closedForm_le_of_small {n : ℤ} (h0 : 0 ≤ n) (h : n ≤ 300080) :
    closedForm n ≤ 2 ^ 53 := by
  rw [closedForm_eq_sumSq h0]
  have := sumSq_zero_le h
  have : ((sumSq 0 n.toNat : ℤ) : ℚ) ≤ (((2 : ℤ) ^ 53 : ℤ) : ℚ) := by exact_mod_cast this
  push_cast at this; exact this

/-- Up to `n = 300080` the parallel variant returns the double the sequential
one returns, for every team and every order of combination. -/
theorem parallel_binary64_small {n : ℤ} (h0 : 0 ≤ n) (h : n ≤ 300080) (order : List ℕ)
    (env : OmpEnv) (k : ℤ) (hp : order.Perm (List.range (applyNumThreads env k).nthreads)) :
    (heavy_compute_cpp_parallel binary64 order env n k).1 = heavy_compute_cpp binary64 n := by
  have htot := privateSum_exact_total n _ (applyNumThreads env k).pos order hp
  rw [max_eq_left h0] at htot
  have hred := reduce_binary64_eq_total order
    (privateSum binary64 n (applyNumThreads env k).nthreads)
    (privateSum exactArith n (applyNumThreads env k).nthreads)
    (fun t _ => forLoop_exact_isNat _ _)
    (fun t _ hb => forLoop_binary64_eq_exact _ _ hb)
    (by rw [htot]; exact closedForm_le_of_small h0 h)
  rw [parallel_fst, parallel_snd, hred, htot, heavy_compute_cpp, forLoop_binary64_small n h0 h]

/-- Up to `n = 300080` every split of `[0, n)` into consecutive chunks, combined
in any order, gives the double the sequential variant returns. -/
theorem chunked_binary64_small {n : ℤ} (h0 : 0 ≤ n) (h : n ≤ 300080) (sizes : List ℕ)
    (hs : ((sizes.sum : ℕ) : ℤ) = n) (cs : List (ℤ × ℤ)) (hp : cs.Perm (chunksFrom 0 sizes)) :
    binary64 (s2 binary64 * chunkedSum binary64 cs) = heavy_compute_cpp binary64 n := by
  have htot := chunks_exact_total n sizes hs cs hp
  have hred := reduce_binary64_eq_total cs
    (fun c => forLoop binary64 c.1 c.2 0) (fun c => forLoop exactArith c.1 c.2 0)
    (fun c _ => forLoop_exact_isNat _ _)
    (fun c _ hb => forLoop_binary64_eq_exact _ _ hb)
    (by rw [htot]; exact closedForm_le_of_small h0 h)
  rw [chunkedSum, hred, htot, heavy_compute_cpp, forLoop_binary64_small n h0 h]


/-! ## Magnitude of the values of the loop -/

theorem binary64_two_pow (e : ℕ) : binary64 ((2 : ℚ) ^ e) = 2 ^ e := by
  have := binary64_repr 1 (e : ℤ) (by norm_num) (by omega)
  simpa [zpow_natCast] using this

theorem binary64_le_two_pow {x : ℚ} (hx : 0 ≤ x) (e : ℕ) (h : x ≤ 2 ^ e) :
    binary64 x ≤ 2 ^ e := by
  rw [← binary64_two_pow e]; exact binary64_mono hx h

theorem roundHalfEven_add_small (m : ℤ) {d : ℚ} (h0 : 0 ≤ d) (h1 : d < 1 / 2) :
    roundHalfEven ((m : ℚ) + d) = m := by
  have hf : ⌊(m : ℚ) + d⌋ = m := by
    rw [Int.floor_int_add, Int.floor_eq_zero_iff.mpr ⟨h0, by linarith⟩, add_zero]
  simp only [roundHalfEven, hf]
  rw [if_pos (by linarith)]

/-- A term of at most `2 ^ 126` added to a binary64 number of at least `2 ^ 180`
is lost in the rounding. -/
theorem binary64_absorb {acc t : ℚ} (hfix : binary64 acc = acc) (hacc : 2 ^ 180 ≤ acc)
    (ht0 : 0 ≤ t) (ht : t ≤ 2 ^ 126) : binary64 (acc + t) = acc := by
  have hpos : 0 < acc := lt_of_lt_of_le (by norm_num) hacc
  have habs : |acc| = acc := abs_of_pos hpos
  have hL : (180 : ℤ) ≤ Int.log 2 |acc| := by
    apply (Int.zpow_le_iff_le_log (R := ℚ) (b := 2) (by norm_num) (abs_pos.mpr hpos.ne.symm)).mp
    rw [habs]; norm_num at hacc ⊢; exact hacc
  have hu : ulpExp acc = Int.log 2 |acc| - 52 := by simp only [ulpExp]; omega
  have hu128 : (128 : ℤ) ≤ ulpExp acc := by omega
  have hlow : (2 : ℚ) ^ (ulpExp acc + 52) ≤ acc := by
    have := Int.zpow_log_le_self (R := ℚ) (b := 2) (by norm_num) (abs_pos.mpr hpos.ne.symm)
    rw [hu, sub_add_cancel]
    calc (2 : ℚ) ^ Int.log 2 |acc| ≤ |acc| := by exact_mod_cast this
      _ = acc := habs
  have hup : acc < (2 : ℚ) ^ (ulpExp acc + 53) := by
    have := abs_lt_zpow_ulpExp acc
    rwa [habs] at this
  have hU : (0 : ℚ) < 2 ^ ulpExp acc := two_zpow_pos _
  have hm : ((roundHalfEven (acc / 2 ^ ulpExp acc) : ℤ) : ℚ) * 2 ^ ulpExp acc = acc := hfix
  generalize roundHalfEven (acc / 2 ^ ulpExp acc) = m at hm
  have hmlt : m < 2 ^ 53 := by
    have h1 : (m : ℚ) * 2 ^ ulpExp acc < 2 ^ (53 : ℤ) * 2 ^ ulpExp acc := by
      rw [hm, ← zpow_add₀ (by norm_num : (2 : ℚ) ≠ 0), add_comm]; exact hup
    have h2 := lt_of_mul_lt_mul_right h1 hU.le
    have h3 : (m : ℚ) < (((2 : ℤ) ^ 53 : ℤ) : ℚ) := by
      push_cast; norm_num at h2 ⊢; exact h2
    exact_mod_cast h3
  have hmle : (m : ℚ) ≤ 2 ^ (53 : ℤ) - 1 := by
    have : m ≤ 2 ^ 53 - 1 := by omega
    have h3 : (m : ℚ) ≤ (((2 : ℤ) ^ 53 - 1 : ℤ) : ℚ) := by exact_mod_cast this
    push_cast at h3; norm_num at h3 ⊢; exact h3
  have hquarter : t ≤ 2 ^ ulpExp acc / 4 := by
    have h128 : (2 : ℚ) ^ (128 : ℤ) ≤ 2 ^ ulpExp acc := zpow_le_zpow_right₀ (by norm_num) hu128
    have : (2 : ℚ) ^ (126 : ℕ) = 2 ^ (128 : ℤ) / 4 := by norm_num
    rw [this] at ht
    linarith
  have hacc_le : acc ≤ 2 ^ (ulpExp acc + 53) - 2 ^ ulpExp acc := by
    have := mul_le_mul_of_nonneg_right hmle hU.le
    rw [hm, sub_mul, one_mul, ← zpow_add₀ (by norm_num : (2 : ℚ) ≠ 0), add_comm] at this
    exact this
  have hsum_pos : 0 < acc + t := by linarith
  have hb1 : (2 : ℚ) ^ (ulpExp acc + 52) ≤ |acc + t| := by
    rw [abs_of_pos hsum_pos]; linarith
  have hb2 : |acc + t| < (2 : ℚ) ^ (ulpExp acc + 52 + 1) := by
    rw [abs_of_pos hsum_pos, show ulpExp acc + 52 + 1 = ulpExp acc + 53 by ring]
    linarith
  have hq : acc / 2 ^ ulpExp acc = (m : ℚ) := by
    rw [div_eq_iff hU.ne.symm]; exact hm.symm
  have hd0 : 0 ≤ t / 2 ^ ulpExp acc := div_nonneg ht0 hU.le
  have hd1 : t / 2 ^ ulpExp acc < 1 / 2 := by
    rw [div_lt_iff₀ hU]; linarith
  rw [binary64_eq_of_bounds (ulpExp acc + 52) hb1 hb2 (by omega), add_sub_cancel_right,
    add_div, hq, roundHalfEven_add_small m hd0 hd1, hm]

/-- One addition of a term of at most `2 ^ 126` keeps a binary64 accumulator at
most `2 ^ 181`. -/
theorem binary64_add_le {acc t : ℚ} (h0 : 0 ≤ acc) (hfix : binary64 acc = acc)
    (hb : acc ≤ 2 ^ 181) (ht0 : 0 ≤ t) (ht : t ≤ 2 ^ 126) : binary64 (acc + t) ≤ 2 ^ 181 := by
  rcases le_or_lt ((2 : ℚ) ^ 180) acc with h | h
  · rw [binary64_absorb hfix h ht0 ht]; exact hb
  · apply binary64_le_two_pow (by linarith) 181
    have : (2 : ℚ) ^ 180 + 2 ^ 126 ≤ 2 ^ 181 := by norm_num
    linarith

/-- The square taken on the double of a counter value is at most `2 ^ 126`. -/
theorem square_term_le {i : ℤ} (h0 : 0 ≤ i) (h : i ≤ INT64_MAX) :
    0 ≤ binary64 (i : ℚ) ∧ binary64 (i : ℚ) ≤ 2 ^ 63 ∧
    0 ≤ binary64 (i : ℚ) * binary64 (i : ℚ) ∧ binary64 (i : ℚ) * binary64 (i : ℚ) ≤ 2 ^ 126 ∧
    0 ≤ binary64 (binary64 (i : ℚ) * binary64 (i : ℚ)) ∧
    binary64 (binary64 (i : ℚ) * binary64 (i : ℚ)) ≤ 2 ^ 126 := by
  have hi0 : (0 : ℚ) ≤ (i : ℚ) := by exact_mod_cast h0
  have hi1 : (i : ℚ) ≤ 2 ^ 63 := by
    have : i ≤ 2 ^ 63 := by simp only [INT64_MAX] at h; omega
    have : (i : ℚ) ≤ (((2 : ℤ) ^ 63 : ℤ) : ℚ) := by exact_mod_cast this
    push_cast at this; exact this
  have a := binary64_nonneg hi0
  have b := binary64_le_two_pow hi0 63 hi1
  have c : 0 ≤ binary64 (i : ℚ) * binary64 (i : ℚ) := mul_nonneg a a
  have d : binary64 (i : ℚ) * binary64 (i : ℚ) ≤ 2 ^ 126 := by
    have := mul_le_mul b b a (by norm_num : (0 : ℚ) ≤ 2 ^ 63)
    calc binary64 (i : ℚ) * binary64 (i : ℚ) ≤ 2 ^ 63 * 2 ^ 63 := this
      _ = 2 ^ 126 := by norm_num
  exact ⟨a, b, c, d, binary64_nonneg c, binary64_le_two_pow c 126 d⟩

theorem forLoop_binary64_bound (lo : ℤ) (k : ℕ) (hlo : 0 ≤ lo) (hhi : lo + k ≤ INT64_MAX + 1)
    {s : ℚ} (hs : 0 ≤ s) (hfix : binary64 s = s) (hb : s ≤ 2 ^ 181) :
    forLoop binary64 lo (lo + k) s ≤ 2 ^ 181 := by
  induction k with
  | zero => simpa [forLoop_of_le] using hb
  | succ k ih =>
    have e : lo + ((k + 1 : ℕ) : ℤ) = (lo + k) + 1 := by push_cast; ring
    have hk : lo + (k : ℤ) ≤ INT64_MAX := by push_cast at hhi; omega
    have inv := forLoop_binary64_inv lo k hs hfix
    have t := square_term_le (i := lo + k) (by omega) hk
    rw [e, forLoop_succ binary64 (by omega)]
    exact binary64_add_le (le_trans hs inv.1) inv.2 (ih (by omega)) t.2.2.2.2.1 t.2.2.2.2.2

/-- For a bound in the range of `int64_t` the accumulator stays between `0` and
`2 ^ 181`. -/
theorem forLoop_binary64_le {n : ℤ} (hn : n ≤ INT64_MAX) :
    0 ≤ forLoop binary64 0 n 0 ∧ forLoop binary64 0 n 0 ≤ 2 ^ 181 := by
  refine ⟨forLoop_binary64_ge 0 n le_rfl binary64_zero, ?_⟩
  rcases le_total n 0 with h | h
  · rw [forLoop_of_le _ h]; norm_num
  · have := forLoop_binary64_bound 0 n.toNat le_rfl (by omega) le_rfl binary64_zero
      (by norm_num)
    have e : (0 : ℤ) + ((n.toNat : ℕ) : ℤ) = n := by omega
    calc forLoop binary64 0 n 0 = forLoop binary64 0 (0 + ((n.toNat : ℕ) : ℤ)) 0 := by rw [e]
      _ ≤ 2 ^ 181 := this

theorem heavy_compute_cpp_le {n : ℤ} (hn : n ≤ INT64_MAX) :
    s2 binary64 * forLoop binary64 0 n 0 ≤ 2 ^ 181 ∧ heavy_compute_cpp binary64 n ≤ 2 ^ 181 := by
  obtain ⟨h0, h1⟩ := forLoop_binary64_le hn
  have hs1 : s2 binary64 ≤ 1 := by rw [s2_binary64]; norm_num
  have hp : s2 binary64 * forLoop binary64 0 n 0 ≤ 2 ^ 181 :=
    le_trans (mul_le_of_le_one_left h0 hs1) h1
  exact ⟨hp, binary64_le_two_pow (mul_nonneg s2_binary64_pos.le h0) 181 hp⟩

/-- Sum of the squares of `k` counter values: below `2 ^ 189`. -/
theorem sumSq_lt {lo : ℤ} {k : ℕ} (hlo : 0 ≤ lo) (hhi : lo + k ≤ INT64_MAX + 1) :
    sumSq lo k < 2 ^ 189 := by
  have hterm : ∀ j ∈ Finset.range k, (lo + (j : ℤ)) ^ 2 ≤ (2 ^ 63 - 1) ^ 2 := by
    intro j hj
    have hj' := Finset.mem_range.mp hj
    simp only [INT64_MAX] at hhi
    apply pow_le_pow_left₀ (by omega) (by omega)
  have h1 : sumSq lo k ≤ ∑ _j in Finset.range k, ((2 : ℤ) ^ 63 - 1) ^ 2 :=
    Finset.sum_le_sum hterm
  rw [Finset.sum_const, Finset.card_range, nsmul_eq_mul] at h1
  have hk : (k : ℤ) ≤ 2 ^ 63 := by simp only [INT64_MAX] at hhi; omega
  have h2 : (k : ℤ) * ((2 : ℤ) ^ 63 - 1) ^ 2 ≤ 2 ^ 63 * ((2 : ℤ) ^ 63 - 1) ^ 2 :=
    mul_le_mul_of_nonneg_right hk (by norm_num)
  have h3 : (2 : ℤ) ^ 63 * ((2 : ℤ) ^ 63 - 1) ^ 2 < 2 ^ 189 := by norm_num
  omega

/-! ## Rounding error -/

theorem abs_roundHalfEven_sub_le (q : ℚ) : |(roundHalfEven q : ℚ) - q| ≤ 1 / 2 := by
  have h1 : (⌊q⌋ : ℚ) ≤ q := Int.floor_le q
  have h2 : q < ⌊q⌋ + 1 := Int.lt_floor_add_one q
  rw [abs_le]
  simp only [roundHalfEven]
  split_ifs <;> push_cast <;> constructor <;> linarith

/-- Absolute error of a rounding: half a unit in the last place. -/
theorem binary64_abs_err (x : ℚ) : |binary64 x - x| ≤ 2 ^ ulpExp x / 2 := by
  have hU : (0 : ℚ) < 2 ^ ulpExp x := two_zpow_pos _
  have e : binary64 x - x =
      ((roundHalfEven (x / 2 ^ ulpExp x) : ℚ) - x / 2 ^ ulpExp x) * 2 ^ ulpExp x := by
    rw [binary64, sub_mul, div_mul_cancel₀ _ hU.ne.symm]
  rw [e, abs_mul, abs_of_pos hU]
  have := mul_le_mul_of_nonneg_right (abs_roundHalfEven_sub_le (x / 2 ^ ulpExp x)) hU.le
  linarith

/-- Relative error of a rounding in the normal range: at most `2 ^ -53`. -/
theorem binary64_rel_err {x : ℚ} (hx : (2 : ℚ) ^ (-1022 : ℤ) ≤ |x|) :
    |binary64 x - x| ≤ |x| / 2 ^ 53 := by
  have hpos : 0 < |x| := lt_of_lt_of_le (two_zpow_pos _) hx
  have hL : (-1022 : ℤ) ≤ Int.log 2 |x| := by
    apply (Int.zpow_le_iff_le_log (R := ℚ) (b := 2) (by norm_num) hpos).mp
    exact_mod_cast hx
  have hu : ulpExp x = Int.log 2 |x| - 52 := by simp only [ulpExp]; omega
  have hlow : (2 : ℚ) ^ (ulpExp x + 52) ≤ |x| := by
    have := Int.zpow_log_le_self (R := ℚ) (b := 2) (by norm_num) hpos
    rw [hu, sub_add_cancel]
    exact_mod_cast this
  have h := binary64_abs_err x
  rw [zpow_add₀ (by norm_num : (2 : ℚ) ≠ 0)] at hlow
  have h52 : (2 : ℚ) ^ (52 : ℤ) = 2 ^ 53 / 2 := by norm_num
  rw [h52] at hlow
  rw [le_div_iff₀ (by norm_num : (0 : ℚ) < 2 ^ 53)]
  have hU : (0 : ℚ) < 2 ^ ulpExp x := two_zpow_pos _
  nlinarith [abs_nonneg (binary64 x - x)]

theorem binary64_rel_err_of_half_le {x : ℚ} (hx : 1 / 2 ≤ x) :
    |binary64 x - x| ≤ x / 2 ^ 53 := by
  have hpos : 0 < x := by linarith
  have := binary64_rel_err (x := x) (by
    rw [abs_of_pos hpos]
    have : (2 : ℚ) ^ (-1022 : ℤ) ≤ 1 / 2 := by
      rw [show (1 / 2 : ℚ) = 2 ^ (-1 : ℤ) by norm_num]
      exact zpow_le_zpow_right₀ (by norm_num) (by norm_num)
    exact le_trans this hx)
  rwa [abs_of_pos hpos] at this

theorem closedForm_nonneg {n : ℤ} (h : 0 ≤ n) : 0 ≤ closedForm n := by
  rw [closedForm_eq_sumSq h]
  exact_mod_cast sumSq_nonneg 0 n.toNat

/-- One squared term in double arithmetic: relative error at most `2 ^ -53`. -/
theorem square_term_err {k : ℕ} (hk : k ≤ 2 ^ 49) :
    |binary64 (binary64 ((k : ℤ) : ℚ) * binary64 ((k : ℤ) : ℚ)) - (k : ℚ) ^ 2| ≤
      (k : ℚ) ^ 2 / 2 ^ 53 := by
  have hfix : binary64 ((k : ℤ) : ℚ) = ((k : ℤ) : ℚ) :=
    binary64_intCast _ (by rw [abs_of_nonneg (Int.natCast_nonneg k)]; omega)
  rw [hfix]
  rcases Nat.eq_zero_or_pos k with rfl | hpos
  · simp [binary64_zero]
  · have h1 : (1 : ℚ) ≤ (k : ℚ) := by exact_mod_cast hpos
    have h2 : (1 : ℚ) / 2 ≤ (k : ℚ) * (k : ℚ) := by nlinarith
    have := binary64_rel_err_of_half_le h2
    push_cast
    rw [pow_two]
    exact this

theorem forLoop_binary64_one : forLoop binary64 0 1 0 = 0 := by
  have h1 := forLoop_succ binary64 (le_refl (0 : ℤ)) 0
  rw [forLoop_of_le binary64 (le_refl (0 : ℤ)), zero_add] at h1
  rw [h1]; simp [loopBody, binary64_zero]

/-- One step of the error analysis, on plain numbers: `P` stands for `k * S`,
`Q` for `k ^ 2` and `R` for `k * k ^ 2`. -/
theorem err_step {A t S P Q R fx : ℚ} (hS : 0 ≤ S) (hQ : 0 ≤ Q) (hR : 0 ≤ R)
    (hP : P ≤ 2 ^ 49 * S) (f1 : |A - S| ≤ 3 / 2 ^ 53 * P) (f2 : |t - Q| ≤ Q / 2 ^ 53)
    (f3 : |fx - (A + t)| ≤ (A + t) / 2 ^ 53) :
    |fx - (S + Q)| ≤ 3 / 2 ^ 53 * (P + R + S + Q) := by
  have g1 := abs_le.mp f1
  have g2 := abs_le.mp f2
  have g3 := abs_le.mp f3
  rw [abs_le]
  constructor <;> linarith [g1.1, g1.2, g2.1, g2.2, g3.1, g3.2]

/-- Accumulated error of the loop in double arithmetic: relative error at most
`3 * k * 2 ^ -53` after `k` iterations, for `k` up to `2 ^ 49`. -/
theorem forLoop_binary64_err (k : ℕ) (hk : k ≤ 2 ^ 49) :
    |forLoop binary64 0 (k : ℤ) 0 - closedForm (k : ℤ)| ≤
      3 * (k : ℚ) / 2 ^ 53 * closedForm (k : ℤ) := by
  induction k with
  | zero => simp [forLoop_of_le, closedForm_zero]
  | succ k ih =>
    rcases Nat.eq_zero_or_pos k with rfl | hpos
    · have e : (((0 + 1 : ℕ) : ℕ) : ℤ) = 1 := by norm_num
      rw [e, forLoop_binary64_one]
      norm_num [closedForm]
    have hk' : k ≤ 2 ^ 49 := by omega
    have ih := ih hk'
    have hS : 0 ≤ closedForm (k : ℤ) := closedForm_nonneg (Int.natCast_nonneg k)
    have hsucc : closedForm (((k + 1 : ℕ) : ℤ)) = closedForm (k : ℤ) + (k : ℚ) ^ 2 := by
      have := closedForm_succ (k : ℤ)
      push_cast at this ⊢
      exact this
    have hstep : forLoop binary64 0 (((k + 1 : ℕ) : ℤ)) 0 =
        binary64 (forLoop binary64 0 (k : ℤ) 0 +
          binary64 (binary64 ((k : ℤ) : ℚ) * binary64 ((k : ℤ) : ℚ))) := by
      have := forLoop_succ binary64 (Int.natCast_nonneg k) 0
      push_cast
      rw [this]; rfl
    have ht := square_term_err hk'
    have hq : (0 : ℚ) ≤ (k : ℚ) ^ 2 := sq_nonneg _
    have hkq : (k : ℚ) ≤ 2 ^ 49 := by exact_mod_cast hk'
    have hk0 : (0 : ℚ) ≤ (k : ℚ) := Nat.cast_nonneg k
    have h1 : (1 : ℚ) ≤ (k : ℚ) := by exact_mod_cast hpos
    have hq1 : (1 : ℚ) ≤ (k : ℚ) ^ 2 := by nlinarith
    have hx : 1 / 2 ≤ forLoop binary64 0 (k : ℤ) 0 +
        binary64 (binary64 ((k : ℤ) : ℚ) * binary64 ((k : ℤ) : ℚ)) := by
      have hA : 0 ≤ forLoop binary64 0 (k : ℤ) 0 :=
        forLoop_binary64_ge 0 _ le_rfl binary64_zero
      have : (k : ℚ) ^ 2 / 2 ^ 53 ≤ (k : ℚ) ^ 2 / 2 :=
        div_le_div_of_nonneg_left hq (by norm_num) (by norm_num)
      linarith [(abs_le.mp ht).1]
    have hr := binary64_rel_err_of_half_le hx
    have key := err_step (P := (k : ℚ) * closedForm (k : ℤ)) (R := (k : ℚ) * (k : ℚ) ^ 2) hS hq
      (mul_nonneg hk0 hq) (mul_le_mul_of_nonneg_right hkq hS)
      (by rw [show 3 / 2 ^ 53 * ((k : ℚ) * closedForm (k : ℤ)) =
            3 * (k : ℚ) / 2 ^ 53 * closedForm (k : ℤ) by ring]; exact ih)
      ht hr
    rw [hstep, hsucc]
    have e : 3 * (((k + 1 : ℕ) : ℕ) : ℚ) / 2 ^ 53 * (closedForm (k : ℤ) + (k : ℚ) ^ 2) =
        3 / 2 ^ 53 * ((k : ℚ) * closedForm (k : ℤ) + (k : ℚ) * (k : ℚ) ^ 2 +
          closedForm (k : ℤ) + (k : ℚ) ^ 2) := by
      push_cast; ring
    rw [e]; exact key

/-- The scaling at the end, on plain numbers: `P` stands for `n * S`. -/
theorem err_final {A S P r : ℚ} (hS : 0 ≤ S) (hP0 : 0 ≤ P) (hP : P ≤ 2 ^ 49 * S)
    (f1 : |A - S| ≤ 3 / 2 ^ 53 * P)
    (f3 : |r - 4722366482869645 / 2 ^ 72 * A| ≤ 4722366482869645 / 2 ^ 72 * A / 2 ^ 53) :
    |r - 1 / 1000000 * S| ≤ 3 / 2 ^ 53 * (P + S) * (1 / 1000000) := by
  have g1 := abs_le.mp f1
  have g3 := abs_le.mp f3
  rw [abs_le]
  constructor <;> linarith [g1.1, g1.2, g3.1, g3.2]

theorem forLoop_binary64_two : forLoop binary64 0 2 0 = 1 := by
  have := forLoop_binary64_chunk 0 2 1 (by norm_num [closedForm]) (by norm_num)
  simpa using this

/-- Error of the returned double: relative error at most `(3n + 3) * 2 ^ -53`
against `1e-6` times the closed form, for `n` up to `2 ^ 49`. -/
theorem heavy_compute_cpp_err {n : ℤ} (h0 : 0 ≤ n) (h : n ≤ 2 ^ 49) :
    |heavy_compute_cpp binary64 n - 1 / 1000000 * closedForm n| ≤
      (3 * (n : ℚ) + 3) / 2 ^ 53 * (1 / 1000000 * closedForm n) := by
  rcases (show n = 0 ∨ n = 1 ∨ 2 ≤ n by omega) with rfl | rfl | h2
  · rw [heavy_compute_cpp_of_nonpos le_rfl]; norm_num [closedForm]
  · rw [heavy_compute_cpp_one]; norm_num [closedForm]
  · have hk : n.toNat ≤ 2 ^ 49 := by omega
    have e : ((n.toNat : ℕ) : ℤ) = n := Int.toNat_of_nonneg h0
    have eq : ((n.toNat : ℕ) : ℚ) = (n : ℚ) := by exact_mod_cast congrArg (fun z : ℤ => (z : ℚ)) e
    have herr := forLoop_binary64_err n.toNat hk
    rw [e, eq] at herr
    have hS : 0 ≤ closedForm n := closedForm_nonneg h0
    have hn0 : (0 : ℚ) ≤ (n : ℚ) := by exact_mod_cast h0
    have hnq : (n : ℚ) ≤ 2 ^ 49 := by exact_mod_cast h
    have hA : 1 ≤ forLoop binary64 0 n 0 := forLoop_binary64_two ▸ forLoop_binary64_mono h2
    have hy : (2 : ℚ) ^ (-1022 : ℤ) ≤ |4722366482869645 / 2 ^ 72 * forLoop binary64 0 n 0| := by
      have h1 : (0 : ℚ) < 4722366482869645 / 2 ^ 72 * forLoop binary64 0 n 0 := by
        apply mul_pos (by norm_num); linarith
      rw [abs_of_pos h1]
      have h2 : (2 : ℚ) ^ (-1022 : ℤ) ≤ 2 ^ (-20 : ℤ) :=
        zpow_le_zpow_right₀ (by norm_num) (by norm_num)
      have h3 : (2 : ℚ) ^ (-20 : ℤ) ≤ 4722366482869645 / 2 ^ 72 := by norm_num
      have h4 : (4722366482869645 / 2 ^ 72 : ℚ) ≤
          4722366482869645 / 2 ^ 72 * forLoop binary64 0 n 0 :=
        le_mul_of_one_le_right (by norm_num) hA
      exact le_trans h2 (le_trans h3 h4)
    have hr := binary64_rel_err hy
    rw [abs_of_nonneg (mul_nonneg (by norm_num) (le_trans zero_le_one hA))] at hr
    have key := err_final (P := (n : ℚ) * closedForm n) hS (mul_nonneg hn0 hS)
      (mul_le_mul_of_nonneg_right hnq hS)
      (by rw [show 3 / 2 ^ 53 * ((n : ℚ) * closedForm n) = 3 * (n : ℚ) / 2 ^ 53 * closedForm n
            by ring]; exact herr)
      (r := heavy_compute_cpp binary64 n)
      (by rw [heavy_compute_cpp, s2_binary64]; exact hr)
    rw [show (3 * (n : ℚ) + 3) / 2 ^ 53 * (1 / 1000000 * closedForm n) =
      3 / 2 ^ 53 * ((n : ℚ) * closedForm n + closedForm n) * (1 / 1000000) by ring]
    exact key

theorem seq_acc_300081 : forLoop binary64 0 300081 0 = 9007246944223880 := by
  have h := forLoop_succ binary64 (show (0 : ℤ) ≤ 300080 by norm_num) 0
  have e : (300080 : ℤ) + 1 = 300081 := by norm_num
  rw [e, seq_acc_300080, loopBody_binary64_sq _ _ (by norm_num)] at h
  rw [h, binary64_eq_of_bounds 53 (by norm_num [abs_of_pos]) (by norm_num [abs_of_pos])
    (by norm_num)]
  norm_num [roundHalfEven]

/-- Up to `n = 300081` the accumulator after the loop is the closed form. -/
theorem forLoop_binary64_small81 (n : ℤ) (h0 : 0 ≤ n) (h : n ≤ 300081) :
    forLoop binary64 0 n 0 = closedForm n := by
  rcases (show n ≤ 300080 ∨ n = 300081 by omega) with h1 | rfl
  · exact forLoop_binary64_small n h0 h1
  · rw [seq_acc_300081]; norm_num [closedForm]

/-! ## Teams of one or two threads -/

theorem privateSum_binary64_fix (n : ℤ) (T t : ℕ) :
    binary64 (privateSum binary64 n T t) = privateSum binary64 n T t :=
  forLoop_binary64_fix _ _ le_rfl binary64_zero

theorem perm_range_one {order : List ℕ} (h : order.Perm (List.range 1)) : order = [0] := by
  have : List.range 1 = [0] := rfl
  rw [this] at h
  exact List.perm_singleton.mp h

theorem perm_range_two {order : List ℕ} (h : order.Perm (List.range 2)) :
    order = [0, 1] ∨ order = [1, 0] := by
  have hr : List.range 2 = [0, 1] := rfl
  rw [hr] at h
  have hl := h.length_eq
  match order, hl with
  | [a, b], _ =>
    have ha : a ∈ [0, 1] := h.subset (List.mem_cons_self _ _)
    have hb : b ∈ [0, 1] := h.subset (List.mem_cons_of_mem _ (List.mem_cons_self _ _))
    have hnd : [a, b].Nodup := h.nodup_iff.mpr (by decide)
    simp only [List.mem_cons, List.mem_singleton, List.not_mem_nil, or_false] at ha hb
    simp only [List.nodup_cons, List.mem_singleton, List.not_mem_nil, not_false_eq_true,
      List.nodup_nil, and_true] at hnd
    rcases ha with rfl | rfl <;> rcases hb with rfl | rfl <;> simp_all

/-- With a team of one or two threads the order in which the private copies
are combined does not change the double. -/
theorem reduceAdd_small_team (n : ℤ) {T : ℕ} (hT : T ≤ 2) {order : List ℕ}
    (h : order.Perm (List.range T)) :
    reduceAdd binary64 0 (order.map (privateSum binary64 n T)) =
      reduceAdd binary64 0 ((List.range T).map (privateSum binary64 n T)) := by
  have hT' : T = 0 ∨ T = 1 ∨ T = 2 := by omega
  rcases hT' with rfl | rfl | rfl
  · have : order = [] := List.perm_nil.mp h
    rw [this]; rfl
  · rw [perm_range_one h]; rfl
  · rcases perm_range_two h with rfl | rfl
    · rfl
    · have hr : List.range 2 = [0, 1] := rfl
      rw [hr, reduceAdd_two, reduceAdd_two, zero_add, zero_add, privateSum_binary64_fix,
        privateSum_binary64_fix, add_comm]

theorem parallel_small_team (order : List ℕ) (env : OmpEnv) (n k : ℤ)
    (hT : (applyNumThreads env k).nthreads ≤ 2)
    (h : order.Perm (List.range (applyNumThreads env k).nthreads)) :
    (heavy_compute_cpp_parallel binary64 order env n k).1 =
      binary64 (s2 binary64 * reduceAdd binary64 0
        ((List.range (applyNumThreads env k).nthreads).map
          (privateSum binary64 n (applyNumThreads env k).nthreads))) := by
  rw [parallel_fst, parallel_snd, reduceAdd_small_team n hT h]


theorem closedForm_pos {n : ℤ} (h : 2 ≤ n) : 0 < closedForm n := by
  rw [closedForm_eq_sumSq (by omega)]
  have h2 : sumSq 0 2 = 1 := by simp [sumSq, Finset.sum_range_succ]
  have := sumSq_mono 0 (show 2 ≤ n.toNat by omega)
  have : (0 : ℤ) < sumSq 0 n.toNat := by omega
  exact_mod_cast this

/-- Above `n = 300081` the accumulation rounds: for `n = 300084` the closed form
is `9007517091844054`, the accumulator after the loop is `9007517091844052`,
and the returned double is one unit in the last place off the double product
of the constant `1e-6` and the closed form. -/
theorem rounding_at_300084 :
    ((300084 : ℚ) - 1) * 300084 * (2 * 300084 - 1) / 6 = 9007517091844054 ∧
    forLoop binary64 0 300084 0 = 9007517091844052 ∧
    heavy_compute_cpp binary64 300084 = 2361266560524367 / 262144 ∧
    binary64 (s2 binary64 * 9007517091844054) = 4722533121048735 / 524288 :=
  ⟨by norm_num, seq_acc_300084, seq_value_300084, scaled_closed_form_300084⟩

/-! # The claims -/

/-- C1: in every arithmetic `heavy_compute_cpp(n)` is the squares of
`i = 0 .. n-1` accumulated from `0` in increasing index order and scaled once
by `1e-6` at the end.  For every `n >= 0` the mathematical value (exact
arithmetic) of the result is `1e-6` times the sum of `i²` for `i = 0 .. n-1`,
the sum is the closed form `(n-1)*n*(2n-1)/6`, and the result is `1e-6` times
the closed form.  On the doubles the equality holds within floating-point
tolerance: for `n <= 300081` the accumulator after the loop is the closed form
exactly and the result is the double product of the constant `1e-6` (the
double `4722366482869645 * 2^-72`) and the closed form; for `n <= 2^49` the
accumulator is within relative error `3n * 2^-53` of the closed form and the
returned double within relative error `(3n+3) * 2^-53` of `1e-6` times the
closed form; for `n <= 3000000` that relative error is at most `1e-9`, and
below `1e-9` when `n >= 2` (for `n <= 1` both values are `0`). -/
theorem heavy_compute_cpp_closed_form (n : ℤ) (hn : 0 ≤ n) :
    (∀ fl : ℚ → ℚ, heavy_compute_cpp fl n =
      fl (fl (1 / 1000000) * (List.range n.toNat).foldl
        (fun acc (i : ℕ) => fl (acc + fl (fl (i : ℚ) * fl (i : ℚ)))) 0)) ∧
    (heavy_compute_cpp exactArith n =
        1 / 1000000 * ∑ i in Finset.range n.toNat, (i : ℚ) ^ 2 ∧
      (∑ i in Finset.range n.toNat, (i : ℚ) ^ 2) = ((n : ℚ) - 1) * n * (2 * n - 1) / 6 ∧
      heavy_compute_cpp exactArith n =
        1 / 1000000 * (((n : ℚ) - 1) * n * (2 * n - 1) / 6)) ∧
    (n ≤ 300081 →
      forLoop binary64 0 n 0 = ((n : ℚ) - 1) * n * (2 * n - 1) / 6 ∧
      heavy_compute_cpp binary64 n =
        binary64 (4722366482869645 / 2 ^ 72 * (((n : ℚ) - 1) * n * (2 * n - 1) / 6))) ∧
    (n ≤ 2 ^ 49 →
      |forLoop binary64 0 n 0 - ((n : ℚ) - 1) * n * (2 * n - 1) / 6| ≤
        3 * (n : ℚ) / 2 ^ 53 * (((n : ℚ) - 1) * n * (2 * n - 1) / 6) ∧
      |heavy_compute_cpp binary64 n - 1 / 1000000 * (((n : ℚ) - 1) * n * (2 * n - 1) / 6)| ≤
        (3 * (n : ℚ) + 3) / 2 ^ 53 *
          (1 / 1000000 * (((n : ℚ) - 1) * n * (2 * n - 1) / 6))) ∧
    (n ≤ 3000000 →
      |heavy_compute_cpp binary64 n - 1 / 1000000 * (((n : ℚ) - 1) * n * (2 * n - 1) / 6)| ≤
        1 / 1000000000 * (1 / 1000000 * (((n : ℚ) - 1) * n * (2 * n - 1) / 6)) ∧
      (2 ≤ n →
        |heavy_compute_cpp binary64 n -
            1 / 1000000 * (((n : ℚ) - 1) * n * (2 * n - 1) / 6)| <
          1 / 1000000000 * (1 / 1000000 * (((n : ℚ) - 1) * n * (2 * n - 1) / 6)))) := by
  have hs : (∑ i in Finset.range n.toNat, (i : ℚ) ^ 2) = closedForm n := by
    rw [sum_sq_closedForm]
    congr 1
    omega
  have hc : closedForm n = ((n : ℚ) - 1) * n * (2 * n - 1) / 6 := rfl
  have hS : 0 ≤ closedForm n := closedForm_nonneg hn
  have hacc : n ≤ 2 ^ 49 → |forLoop binary64 0 n 0 - closedForm n| ≤
      3 * (n : ℚ) / 2 ^ 53 * closedForm n := by
    intro h
    have e : ((n.toNat : ℕ) : ℤ) = n := Int.toNat_of_nonneg hn
    have eq : ((n.toNat : ℕ) : ℚ) = (n : ℚ) := by
      exact_mod_cast congrArg (fun z : ℤ => (z : ℚ)) e
    have := forLoop_binary64_err n.toNat (by omega)
    rwa [e, eq] at this
  have hsmall : n ≤ 3000000 → (3 * (n : ℚ) + 3) / 2 ^ 53 < 1 / 1000000000 := by
    intro h
    have : (n : ℚ) ≤ 3000000 := by exact_mod_cast h
    have h1 : (3 * (n : ℚ) + 3) / 2 ^ 53 ≤ (3 * 3000000 + 3) / 2 ^ 53 :=
      div_le_div_of_nonneg_right (by linarith) (by norm_num)
    exact lt_of_le_of_lt h1 (by norm_num)
  refine ⟨fun fl => ?_, ⟨?_, ?_, ?_⟩, fun h => ⟨?_, ?_⟩, fun h => ⟨?_, ?_⟩, fun h => ⟨?_, ?_⟩⟩
  · simp [heavy_compute_cpp, s2, forLoop, loopBody]
  · rw [hs]; exact heavy_compute_cpp_exact n hn
  · rw [hs, hc]
  · rw [← hc]; exact heavy_compute_cpp_exact n hn
  · rw [← hc]; exact forLoop_binary64_small81 n hn h
  · rw [heavy_compute_cpp, forLoop_binary64_small81 n hn h, s2_binary64, hc]
  · rw [← hc]; exact hacc h
  · rw [← hc]; exact heavy_compute_cpp_err hn h
  · rw [← hc]
    have hP : 0 ≤ 1 / 1000000 * closedForm n := mul_nonneg (by norm_num) hS
    exact le_trans (heavy_compute_cpp_err hn (by omega))
      (mul_le_mul_of_nonneg_right (hsmall h).le hP)
  · intro h2
    rw [← hc]
    have hP : 0 < 1 / 1000000 * closedForm n := mul_pos (by norm_num) (closedForm_pos h2)
    exact lt_of_le_of_lt (heavy_compute_cpp_err hn (by omega))
      (mul_lt_mul_of_pos_right (hsmall h) hP)

theorem heavy_compute_cpp_closed_form_witness :
    (0 : ℤ) ≤ 1000000 ∧ (2 : ℤ) ≤ 1000000 ∧ (1000000 : ℤ) ≤ 3000000 ∧
    |heavy_compute_cpp binary64 1000000 -
        1 / 1000000 * ((((1000000 : ℤ) : ℚ) - 1) * ((1000000 : ℤ) : ℚ) *
          (2 * ((1000000 : ℤ) : ℚ) - 1) / 6)| <
      1 / 1000000000 * (1 / 1000000 * ((((1000000 : ℤ) : ℚ) - 1) * ((1000000 : ℤ) : ℚ) *
          (2 * ((1000000 : ℤ) : ℚ) - 1) / 6)) :=
  ⟨by decide, by decide, by decide,
    ((heavy_compute_cpp_closed_form 1000000 (by decide)).2.2.2.2 (by decide)).2 (by decide)⟩

/-- C2: in exact arithmetic the parallel variant has the same result as the
sequential one.  For every `n >= 0`: for every split of `[0, n)` into
consecutive chunks (of any sizes, any number of them) and every order in which
the chunks are combined, the partial sums of squares added up and multiplied
by `1e-6` give `heavy_compute_cpp(n)`; the static schedule is such a split
(the chunk of thread `0` starts at `0`, each chunk ends where the next one
starts, the last one ends at `n`); and `heavy_compute_cpp_parallel(n,
num_threads)` returns `heavy_compute_cpp(n)` for every `num_threads`, every
runtime state and every order in which the threads of the team are combined. -/
theorem parallel_eq_sequential_exact (n : ℤ) (hn : 0 ≤ n) :
    (∀ (sizes : List ℕ) (chunks : List (ℤ × ℤ)), ((sizes.sum : ℕ) : ℤ) = n →
      chunks.Perm (chunksFrom 0 sizes) →
      exactArith (s2 exactArith * chunkedSum exactArith chunks) =
        heavy_compute_cpp exactArith n) ∧
    (∀ T t : ℕ, 0 < T →
      (staticChunk n T 0).1 = 0 ∧ (staticChunk n T t).1 ≤ (staticChunk n T t).2 ∧
      (staticChunk n T t).2 = (staticChunk n T (t + 1)).1 ∧
      (staticChunk n T (T - 1)).2 = n) ∧
    (∀ (order : List ℕ) (env : OmpEnv) (num_threads : ℤ),
      order.Perm (List.range (applyNumThreads env num_threads).nthreads) →
      (heavy_compute_cpp_parallel exactArith order env n num_threads).1 =
        heavy_compute_cpp exactArith n) := by
  refine ⟨?_, ?_, ?_⟩
  · intro sizes chunks hs hp
    rw [chunkedSum_exact n sizes hs chunks hp, heavy_compute_cpp_exact n hn]
    simp [exactArith, s2]
  · intro T t hT
    refine ⟨staticStart_zero n T, staticChunk_le n T t, staticChunk_snd n T t, ?_⟩
    have e : T - 1 + 1 = T := by omega
    rw [staticChunk_snd, e, staticStart_team n T hT, max_eq_left hn]
  · intro order env k hp
    rw [parallel_exact order env n k hp, heavy_compute_cpp_exact n hn, max_eq_left hn]

theorem parallel_eq_sequential_exact_witness :
    exactArith (s2 exactArith * chunkedSum exactArith [(6, 8), (0, 3), (8, 10), (3, 6)]) =
      heavy_compute_cpp exactArith 10 ∧
    (heavy_compute_cpp_parallel exactArith [2, 0, 1] ⟨8, by decide⟩ 10 3).1 =
      heavy_compute_cpp exactArith 10 :=
  ⟨(parallel_eq_sequential_exact 10 (by decide)).1 [3, 3, 2, 2] _ (by decide) (by decide),
    (parallel_eq_sequential_exact 10 (by decide)).2.2 [2, 0, 1] ⟨8, by decide⟩ 3 (by decide)⟩

/-- C3, the claim fails.  First run: a process whose thread-count setting is 1
calls `heavy_compute_cpp_parallel(300084, 0)`, then `(300084, 2)`, then
`(300084, 0)` again; the first and the third call pass the same `n` and the
same `num_threads`, and return different doubles, because the second call
changed the setting.  Second run: two calls `(303884, 3)` whose three partial
sums are combined in the orders `0, 1, 2` and `1, 2, 0` return different
doubles. -/
theorem determinism_fails :
    (runCalls binary64 ⟨1, Nat.one_pos⟩
        [⟨300084, 0, [0]⟩, ⟨300084, 2, [0, 1]⟩, ⟨300084, 0, [0, 1]⟩]).map Prod.fst =
      [2361266560524367 / 262144, 4722533121048735 / 524288, 4722533121048735 / 524288] ∧
    (2361266560524367 / 262144 : ℚ) ≠ 4722533121048735 / 524288 ∧
    (runCalls binary64 ⟨1, Nat.one_pos⟩
        [⟨303884, 3, [0, 1, 2]⟩, ⟨303884, 3, [1, 2, 0]⟩]).map Prod.fst =
      [2452110441118421 / 262144, 4904220882236843 / 524288] ∧
    (2452110441118421 / 262144 : ℚ) ≠ 4904220882236843 / 524288 := by
  refine ⟨?_, by norm_num, ?_, by norm_num⟩
  · have e : (runCalls binary64 ⟨1, Nat.one_pos⟩
        [⟨300084, 0, [0]⟩, ⟨300084, 2, [0, 1]⟩, ⟨300084, 0, [0, 1]⟩]).map Prod.fst =
      [binary64 (s2 binary64 * reduceAdd binary64 0 ([0].map (privateSum binary64 300084 1))),
       binary64 (s2 binary64 *
         reduceAdd binary64 0 ([0, 1].map (privateSum binary64 300084 2))),
       binary64 (s2 binary64 *
         reduceAdd binary64 0 ([0, 1].map (privateSum binary64 300084 2)))] := rfl
    rw [e, team_one_300084, team_two_300084]
  · have e : (runCalls binary64 ⟨1, Nat.one_pos⟩
        [⟨303884, 3, [0, 1, 2]⟩, ⟨303884, 3, [1, 2, 0]⟩]).map Prod.fst =
      [binary64 (s2 binary64 *
         reduceAdd binary64 0 ([0, 1, 2].map (privateSum binary64 303884 3))),
       binary64 (s2 binary64 *
         reduceAdd binary64 0 ([1, 2, 0].map (privateSum binary64 303884 3)))] := rfl
    rw [e, team_three_303884_in_order, team_three_303884_rotated]

/-- C3, amended: in a sequence of calls made in one process, two calls of
`heavy_compute_cpp_parallel` that pass the same `n` return the same double,
whatever the order in which each call combines the partial sums of its team,
(1) whenever `n <= 300080`, for every `num_threads` (also `0`) and whatever the
thread-count setting was before each call, and (2) for every `n`, whenever
both calls run with the same team of one or two threads, in particular when
both pass `num_threads = 1` or both pass `num_threads = 2`. -/
theorem determinism_small_n_or_small_team (env : OmpEnv) (calls : List Call) (i j : ℕ)
    (ci cj : Call) (ri rj : ℚ × OmpEnv)
    (hci : calls[i]? = some ci) (hcj : calls[j]? = some cj)
    (hri : (runCalls binary64 env calls)[i]? = some ri)
    (hrj : (runCalls binary64 env calls)[j]? = some rj)
    (hoi : ci.order.Perm (List.range ri.2.nthreads))
    (hoj : cj.order.Perm (List.range rj.2.nthreads))
    (hn : ci.n = cj.n) :
    (ci.n ≤ 300080 → ri.1 = rj.1) ∧
    (ri.2.nthreads = rj.2.nthreads → ri.2.nthreads ≤ 2 → ri.1 = rj.1) ∧
    (ci.num_threads = cj.num_threads → 0 < ci.num_threads → ci.num_threads ≤ 2 →
      ri.1 = rj.1) := by
  obtain ⟨ei, rfl⟩ := runCalls_getElem binary64 calls env i ci ri hci hri
  obtain ⟨ej, rfl⟩ := runCalls_getElem binary64 calls env j cj rj hcj hrj
  rw [parallel_snd] at hoi hoj
  have small : ci.n ≤ 300080 →
      (heavy_compute_cpp_parallel binary64 ci.order ei ci.n ci.num_threads).1 =
        (heavy_compute_cpp_parallel binary64 cj.order ej cj.n cj.num_threads).1 := by
    intro h
    rcases le_total ci.n 0 with h0 | h0
    · rw [parallel_of_nonpos h0, parallel_of_nonpos (hn ▸ h0)]
    · rw [parallel_binary64_small h0 h _ _ _ hoi,
        parallel_binary64_small (hn ▸ h0) (hn ▸ h) _ _ _ hoj, hn]
  have team : (applyNumThreads ei ci.num_threads).nthreads =
        (applyNumThreads ej cj.num_threads).nthreads →
      (applyNumThreads ei ci.num_threads).nthreads ≤ 2 →
      (heavy_compute_cpp_parallel binary64 ci.order ei ci.n ci.num_threads).1 =
        (heavy_compute_cpp_parallel binary64 cj.order ej cj.n cj.num_threads).1 := by
    intro hT h2
    rw [parallel_small_team _ _ _ _ h2 hoi, parallel_small_team _ _ _ _ (hT ▸ h2) hoj, hT, hn]
  refine ⟨small, team, fun hk hpos h2 => team ?_ ?_⟩
  · rw [applyNumThreads_pos ei hpos, applyNumThreads_pos ej (hk ▸ hpos), hk]
  · rw [applyNumThreads_pos ei hpos]; omega

theorem determinism_small_n_or_small_team_witness :
    (heavy_compute_cpp_parallel binary64 [1, 0] ⟨4, by decide⟩ 300084 2).1 =
      (heavy_compute_cpp_parallel binary64 [0, 1]
        (heavy_compute_cpp_parallel binary64 [2, 0, 1]
          (heavy_compute_cpp_parallel binary64 [1, 0] ⟨4, by decide⟩ 300084 2).2 9 3).2
        300084 2).1 :=
  (determinism_small_n_or_small_team ⟨4, by decide⟩
    [⟨300084, 2, [1, 0]⟩, ⟨9, 3, [2, 0, 1]⟩, ⟨300084, 2, [0, 1]⟩] 0 2
    ⟨300084, 2, [1, 0]⟩ ⟨300084, 2, [0, 1]⟩ _ _ rfl rfl rfl rfl
    (List.Perm.swap 0 1 []) (List.Perm.refl _) rfl).2.2 rfl (by decide) (by decide)

/-- C4: `heavy_compute_cpp_parallel(n, num_threads)` changes the process-wide
thread-count setting exactly when `num_threads > 0`: after the call the setting
is `num_threads` if `num_threads > 0` and is what it was before otherwise (the
runtime state is then unchanged); and the setting a call leaves stays through
every later call that passes `num_threads <= 0`. -/
theorem thread_count_frame (fl : ℚ → ℚ) (order : List ℕ) (env : OmpEnv) (n num_threads : ℤ)
    (later : List Call) :
    ((heavy_compute_cpp_parallel fl order env n num_threads).2.nthreads : ℤ) =
      (if 0 < num_threads then num_threads else (env.nthreads : ℤ)) ∧
    (num_threads ≤ 0 → (heavy_compute_cpp_parallel fl order env n num_threads).2 = env) ∧
    ((∀ c ∈ later, c.num_threads ≤ 0) →
      ∀ r ∈ runCalls fl (heavy_compute_cpp_parallel fl order env n num_threads).2 later,
        r.2 = (heavy_compute_cpp_parallel fl order env n num_threads).2) := by
  refine ⟨?_, fun h => ?_, fun h => runCalls_frame fl later _ h⟩
  · split_ifs with h
    · rw [parallel_snd, applyNumThreads_pos env h]; omega
    · rw [parallel_snd, applyNumThreads_nonpos env (not_lt.mp h)]
  · rw [parallel_snd, applyNumThreads_nonpos env h]

theorem thread_count_frame_witness :
    ((heavy_compute_cpp_parallel binary64 [0, 1, 2] ⟨8, by decide⟩ 10 3).2.nthreads : ℤ) = 3 ∧
    (heavy_compute_cpp_parallel binary64 [0, 1, 2] ⟨3, by decide⟩ 10 0).2 = ⟨3, by decide⟩ ∧
    (heavy_compute_cpp_parallel binary64 [2, 1, 0]
        (heavy_compute_cpp_parallel binary64 [0, 1, 2] ⟨8, by decide⟩ 10 3).2 4 (-1)).2 =
      (heavy_compute_cpp_parallel binary64 [0, 1, 2] ⟨8, by decide⟩ 10 3).2 :=
  ⟨(thread_count_frame binary64 [0, 1, 2] ⟨8, by decide⟩ 10 3 []).1,
    (thread_count_frame binary64 [0, 1, 2] ⟨3, by decide⟩ 10 0 []).2.1 (by decide),
    (thread_count_frame binary64 [0, 1, 2] ⟨8, by decide⟩ 10 3 [⟨4, -1, [2, 1, 0]⟩]).2.2
      (by decide) _ (List.mem_cons_self _ _)⟩

/-- C5: for every negative `n` the loop body never runs (the accumulator is
returned as it was), `heavy_compute_cpp(n)` returns `0.0`, and so does
`heavy_compute_cpp_parallel(n, k)` for every `k`, in every runtime state and
for every combination order; both functions are total, no error arises. -/
theorem negative_n_returns_zero (n : ℤ) (hn : n < 0) :
    (∀ s : ℚ, forLoop binary64 0 n s = s) ∧
    heavy_compute_cpp binary64 n = 0 ∧
    ∀ (order : List ℕ) (env : OmpEnv) (k : ℤ),
      (heavy_compute_cpp_parallel binary64 order env n k).1 = 0 :=
  ⟨fun s => forLoop_of_le binary64 hn.le s, heavy_compute_cpp_of_nonpos hn.le,
    parallel_of_nonpos hn.le⟩

theorem negative_n_returns_zero_witness :
    forLoop binary64 0 (-7) 5 = 5 ∧
    heavy_compute_cpp binary64 (-7) = 0 ∧
    (heavy_compute_cpp_parallel binary64 [1, 0] ⟨2, by decide⟩ (-7) 2).1 = 0 :=
  ⟨(negative_n_returns_zero (-7) (by decide)).1 5,
    (negative_n_returns_zero (-7) (by decide)).2.1,
    (negative_n_returns_zero (-7) (by decide)).2.2 [1, 0] ⟨2, by decide⟩ 2⟩

/-- C6: the sequential variant is monotone: for `n1 < n2`, the double returned
for `n1` is at most the double returned for `n2`. -/
theorem heavy_compute_cpp_monotone (n1 n2 : ℤ) (h : n1 < n2) :
    heavy_compute_cpp binary64 n1 ≤ heavy_compute_cpp binary64 n2 := by
  have hs : 0 ≤ s2 binary64 := binary64_nonneg (by norm_num)
  have h0 : 0 ≤ forLoop binary64 0 n1 0 := forLoop_binary64_ge 0 n1 le_rfl binary64_zero
  exact binary64_mono (mul_nonneg hs h0)
    (mul_le_mul_of_nonneg_left (forLoop_binary64_mono h.le) hs)

theorem heavy_compute_cpp_monotone_witness :
    heavy_compute_cpp binary64 3 ≤ heavy_compute_cpp binary64 300084 :=
  heavy_compute_cpp_monotone 3 300084 (by decide)

/-- C7: `heavy_compute_cpp(0) == 0.0`, and `heavy_compute_cpp_parallel(0, k) == 0.0`
for every `k`, positive, zero or negative, in every runtime state and for
every combination order. -/
theorem zero_n_returns_zero :
    heavy_compute_cpp binary64 0 = 0 ∧
    ∀ (order : List ℕ) (env : OmpEnv) (k : ℤ),
      (heavy_compute_cpp_parallel binary64 order env 0 k).1 = 0 :=
  ⟨heavy_compute_cpp_of_nonpos le_rfl, parallel_of_nonpos le_rfl⟩

/-- C8: `heavy_compute_cpp(1) == 0.0`: the loop runs its body once, for `i = 0`,
and that iteration adds `0 * 0 = 0` to the accumulator. -/
theorem one_returns_zero :
    (∀ (fl : ℚ → ℚ) (s : ℚ), forLoop fl 0 1 s = loopBody fl s 0) ∧
    loopBody binary64 0 0 = 0 ∧
    heavy_compute_cpp binary64 1 = 0 := by
  have h1 : ∀ (fl : ℚ → ℚ) (s : ℚ), forLoop fl 0 1 s = loopBody fl s 0 := by
    intro fl s
    have := forLoop_succ fl (le_refl (0 : ℤ)) s
    rwa [forLoop_of_le fl (le_refl (0 : ℤ)), zero_add] at this
  have h2 : loopBody binary64 0 0 = 0 := by simp [loopBody, binary64_zero]
  exact ⟨h1, h2, by rw [heavy_compute_cpp, h1, h2, mul_zero, binary64_zero]⟩

/-- C9, the claim fails in double arithmetic: the double returned by
`heavy_compute_cpp(5)` is not the double denoted by the literal `3e-5`, and it
is not the rational number `3/100000` either. -/
theorem five_is_not_3e5 :
    heavy_compute_cpp binary64 5 ≠ binary64 (3 / 100000) ∧
    heavy_compute_cpp binary64 5 ≠ 3 / 100000 := by
  rw [seq_value_5, literal_3e5]
  constructor <;> norm_num

/-- C9, amended: for `n = 5` the accumulator after the loop is exactly
`0+1+4+9+16 = 30`; the returned value is the double product of the constant
`1e-6` and `30`, which is `1106804644422573 * 2^-65`, one unit in the last
place (`2^-68`) below the double denoted by `3e-5`; in exact arithmetic the
result is `1e-6 * 30 = 3e-5`. -/
theorem five_value :
    forLoop binary64 0 5 0 = 0 + 1 + 4 + 9 + 16 ∧
    forLoop binary64 0 5 0 = 30 ∧
    heavy_compute_cpp binary64 5 = binary64 (s2 binary64 * 30) ∧
    heavy_compute_cpp binary64 5 = 1106804644422573 / 2 ^ 65 ∧
    binary64 (3 / 100000) - heavy_compute_cpp binary64 5 = 1 / 2 ^ 68 ∧
    heavy_compute_cpp exactArith 5 = 1 / 1000000 * 30 ∧
    heavy_compute_cpp exactArith 5 = 3 / 100000 := by
  have he : heavy_compute_cpp exactArith 5 = 3 / 100000 := by
    rw [heavy_compute_cpp_exact 5 (by decide)]; norm_num [closedForm]
  refine ⟨by rw [seq_acc_5]; norm_num, seq_acc_5, by rw [heavy_compute_cpp, seq_acc_5],
    seq_value_5, by rw [seq_value_5, literal_3e5]; norm_num, by rw [he]; norm_num, he⟩

/-- C10: the sum of the squares of `0 .. 999` is exactly `332833500`; in exact
arithmetic `heavy_compute_cpp(1000)` is `1e-6 * 332833500 = 332.8335`, and so
is `heavy_compute_cpp_parallel(1000, num_threads)` for every `num_threads`
(in particular `4`), every runtime state and every order in which the threads
of the team are combined. -/
theorem thousand_value :
    (∑ i in Finset.range 1000, i ^ 2) = 332833500 ∧
    heavy_compute_cpp exactArith 1000 = 1 / 1000000 * 332833500 ∧
    heavy_compute_cpp exactArith 1000 = 3328335 / 10000 ∧
    ∀ (order : List ℕ) (env : OmpEnv) (num_threads : ℤ),
      order.Perm (List.range (applyNumThreads env num_threads).nthreads) →
      (heavy_compute_cpp_parallel exactArith order env 1000 num_threads).1 =
        3328335 / 10000 := by
  have hc : closedForm 1000 = 332833500 := by norm_num [closedForm]
  have hs : ((∑ i in Finset.range 1000, i ^ 2 : ℕ) : ℚ) = ((332833500 : ℕ) : ℚ) := by
    have := sum_sq_closedForm 1000
    push_cast at this ⊢
    rw [this, hc]
  have he : heavy_compute_cpp exactArith 1000 = 3328335 / 10000 := by
    rw [heavy_compute_cpp_exact 1000 (by decide), hc]; norm_num
  refine ⟨by exact_mod_cast hs, by rw [he]; norm_num, he, ?_⟩
  intro order env k hp
  rw [parallel_exact order env 1000 k hp, max_eq_left (by decide), hc]; norm_num

theorem thousand_value_witness :
    (heavy_compute_cpp_parallel exactArith [3, 1, 0, 2] ⟨1, by decide⟩ 1000 4).1 =
      3328335 / 10000 :=
  thousand_value.2.2.2 [3, 1, 0, 2] ⟨1, by decide⟩ 4 (by decide)

/-- C11: `heavy_compute_cpp` is stateless: for every `n` and every value of the
process-wide thread-count setting, the call leaves the runtime state as it
was, and its value is `heavy_compute_cpp(n)`, the same for every value of the
setting, also for a setting left by earlier calls of the parallel variant. -/
theorem heavy_compute_cpp_stateless (fl : ℚ → ℚ) (env : OmpEnv) (n : ℤ) :
    (heavy_compute_cpp_in fl env n).2 = env ∧
    (heavy_compute_cpp_in fl env n).1 = heavy_compute_cpp fl n ∧
    (∀ env1 : OmpEnv, (heavy_compute_cpp_in fl env1 n).1 = (heavy_compute_cpp_in fl env n).1) ∧
    (∀ (calls : List Call), ∀ r ∈ runCalls fl env calls,
      heavy_compute_cpp_in fl r.2 n = (heavy_compute_cpp fl n, r.2)) :=
  ⟨rfl, rfl, fun _ => rfl, fun _ _ _ => rfl⟩

/-- C12: overflow to infinity cannot happen.  For every `n` up to `INT64_MAX`:
every term `i²` with `0 <= i < n` is below `2^126`, also as it is computed on
doubles; every sum of such terms over a sub-range is below `2^189`; every
accumulator of the loop lies between `0` and `2^181`, and so does each sum
before it is rounded (below `2^189`); the product by `1e-6` and the returned
value are at most `2^181`; and `2^189` is below the largest finite double,
which is below `2^1024`. -/
theorem no_overflow (n : ℤ) (hn : n ≤ INT64_MAX) :
    (∀ i : ℤ, 0 ≤ i → i < n →
      (i : ℚ) ^ 2 < 2 ^ 126 ∧ binary64 (i : ℚ) * binary64 (i : ℚ) ≤ 2 ^ 126 ∧
      binary64 (binary64 (i : ℚ) * binary64 (i : ℚ)) ≤ 2 ^ 126) ∧
    (∀ (lo : ℤ) (k : ℕ), 0 ≤ lo → lo + k ≤ n → 0 ≤ sumSq lo k ∧ sumSq lo k < 2 ^ 189) ∧
    (∀ m : ℤ, m ≤ n → 0 ≤ forLoop binary64 0 m 0 ∧ forLoop binary64 0 m 0 ≤ 2 ^ 181) ∧
    (∀ m : ℤ, 0 ≤ m → m < n →
      forLoop binary64 0 m 0 + binary64 (binary64 (m : ℚ) * binary64 (m : ℚ)) < 2 ^ 189) ∧
    (s2 binary64 * forLoop binary64 0 n 0 ≤ 2 ^ 181 ∧
      0 ≤ heavy_compute_cpp binary64 n ∧ heavy_compute_cpp binary64 n ≤ 2 ^ 181) ∧
    ((2 : ℚ) ^ 189 < DBL_MAX ∧ DBL_MAX < 2 ^ 1024) := by
  refine ⟨?_, ?_, ?_, ?_, ?_, ?_⟩
  · intro i h0 hlt
    have t := square_term_le h0 (by omega)
    refine ⟨?_, t.2.2.2.1, t.2.2.2.2.2⟩
    have hi : i ≤ 2 ^ 63 - 2 := by simp only [INT64_MAX] at hn; omega
    have h1 : i ^ 2 ≤ (2 ^ 63 - 2) ^ 2 := pow_le_pow_left₀ h0 hi 2
    have h2 : i ^ 2 < 2 ^ 126 := lt_of_le_of_lt h1 (by norm_num)
    exact_mod_cast h2
  · intro lo k h0 h
    exact ⟨sumSq_nonneg lo k, sumSq_lt h0 (by omega)⟩
  · intro m hm
    exact forLoop_binary64_le (le_trans hm hn)
  · intro m h0 hlt
    have a := (forLoop_binary64_le (n := m) (by omega)).2
    have t := (square_term_le h0 (by omega)).2.2.2.2.2
    have : (2 : ℚ) ^ 181 + 2 ^ 126 < 2 ^ 189 := by norm_num
    linarith
  · exact ⟨(heavy_compute_cpp_le hn).1, heavy_compute_cpp_nonneg n, (heavy_compute_cpp_le hn).2⟩
  · constructor <;> norm_num [DBL_MAX]

theorem no_overflow_witness :
    0 ≤ heavy_compute_cpp binary64 INT64_MAX ∧ heavy_compute_cpp binary64 INT64_MAX ≤ 2 ^ 181 :=
  (no_overflow INT64_MAX le_rfl).2.2.2.2.1.2

/-- C13: for every `n` with `0 <= n <= 300000`: every term `i²` and every sum of
terms over a sub-range of `[0, n)` is a non-negative integer of at most `2^53`
and is a binary64 number, and the loop over the sub-range returns it; no step
of the accumulation rounds; the accumulator after the loop is exactly
`(n-1)*n*(2n-1)/6`; and `heavy_compute_cpp_parallel(n, num_threads)` returns the
double `heavy_compute_cpp(n)` returns, for every `num_threads`, every runtime
state and every order of combination, as does every split of `[0, n)` into
consecutive chunks combined in any order. -/
theorem exact_up_to_300000 (n : ℤ) (h0 : 0 ≤ n) (hn : n ≤ 300000) :
    (∀ i : ℤ, 0 ≤ i → i < n →
      0 ≤ i ^ 2 ∧ i ^ 2 ≤ 2 ^ 53 ∧ binary64 ((i ^ 2 : ℤ) : ℚ) = ((i ^ 2 : ℤ) : ℚ)) ∧
    (∀ (lo : ℤ) (k : ℕ), 0 ≤ lo → lo + k ≤ n →
      0 ≤ sumSq lo k ∧ sumSq lo k ≤ 2 ^ 53 ∧
      binary64 ((sumSq lo k : ℤ) : ℚ) = ((sumSq lo k : ℤ) : ℚ) ∧
      forLoop binary64 lo (lo + k) 0 = ((sumSq lo k : ℤ) : ℚ)) ∧
    (∀ m : ℤ, 0 ≤ m → m < n →
      loopBody binary64 (forLoop binary64 0 m 0) m = forLoop binary64 0 m 0 + (m : ℚ) ^ 2) ∧
    forLoop binary64 0 n 0 = ((n : ℚ) - 1) * n * (2 * n - 1) / 6 ∧
    (∀ (order : List ℕ) (env : OmpEnv) (num_threads : ℤ),
      order.Perm (List.range (applyNumThreads env num_threads).nthreads) →
      (heavy_compute_cpp_parallel binary64 order env n num_threads).1 =
        heavy_compute_cpp binary64 n) ∧
    (∀ (sizes : List ℕ) (chunks : List (ℤ × ℤ)), ((sizes.sum : ℕ) : ℤ) = n →
      chunks.Perm (chunksFrom 0 sizes) →
      binary64 (s2 binary64 * chunkedSum binary64 chunks) = heavy_compute_cpp binary64 n) := by
  have hn' : n ≤ 300080 := by omega
  have hsub : ∀ (lo : ℤ) (k : ℕ), 0 ≤ lo → lo + k ≤ n → sumSq lo k ≤ 2 ^ 53 :=
    fun lo k hlo h => le_trans (sumSq_le_of_range hlo h) (sumSq_zero_le hn')
  refine ⟨?_, ?_, ?_, ?_, ?_, ?_⟩
  · intro i hi0 hlt
    have h := hsub i 1 hi0 (by push_cast; omega)
    have e : sumSq i 1 = i ^ 2 := by simp [sumSq]
    rw [e] at h
    exact ⟨sq_nonneg i, h, binary64_intCast _ (by rw [abs_of_nonneg (sq_nonneg i)]; exact h)⟩
  · intro lo k hlo h
    have hb := hsub lo k hlo h
    have hnn := sumSq_nonneg lo k
    refine ⟨hnn, hb, binary64_intCast _ (by rw [abs_of_nonneg hnn]; exact hb), ?_⟩
    have := forLoop_binary64_exact lo k 0 le_rfl (by omega)
    simpa using this
  · intro m hm0 hlt
    have a := forLoop_binary64_small m hm0 (by omega)
    have b := forLoop_binary64_small (m + 1) (by omega) (by omega)
    rw [forLoop_succ binary64 hm0] at b
    rw [b, a, closedForm_succ]
  · exact forLoop_binary64_small n h0 hn'
  · intro order env k hp
    exact parallel_binary64_small h0 hn' order env k hp
  · intro sizes chunks hs hp
    exact chunked_binary64_small h0 hn' sizes hs chunks hp

theorem exact_up_to_300000_witness :
    forLoop binary64 0 300000 0 = 8999955000050000 ∧
    (heavy_compute_cpp_parallel binary64 [1, 0, 2] ⟨1, Nat.one_pos⟩ 300000 3).1 =
      heavy_compute_cpp binary64 300000 ∧
    binary64 (s2 binary64 * chunkedSum binary64 [(100000, 300000), (0, 100000)]) =
      heavy_compute_cpp binary64 300000 := by
  have h := exact_up_to_300000 300000 (by decide) (by decide)
  refine ⟨?_, h.2.2.2.2.1 [1, 0, 2] ⟨1, Nat.one_pos⟩ 3 (by decide),
    h.2.2.2.2.2 [100000, 200000] _ (by decide) ?_⟩
  · rw [h.2.2.2.1]; norm_num
  · simp [chunksFrom, List.Perm.swap]

/-- C14, the claim fails for a negative bound: for `n = -1` the loop is left at
the first test, after no iteration, with the counter `i = 0`, which exceeds
`n`. -/
theorem counter_exceeds_negative_bound :
    loopAfter binary64 (-1) 0 = LoopOutcome.running ⟨0, 0, 0⟩ ∧
    loopAfter binary64 (-1) 1 = LoopOutcome.finished ⟨0, 0, 0⟩ ∧
    ¬ ((0 : ℤ) ≤ -1) := by
  refine ⟨rfl, ?_, by decide⟩
  simp [loopAfter, loopStep]

/-- C14, amended: for every `n` up to `INT64_MAX` the loop of `heavy_compute_cpp`
is left after exactly `max(n, 0)` iterations (after `k <= max(n, 0)` trips it
is about to test `i < n` with `i = k`, and from trip `max(n, 0) + 1` on it has
been left with `i = max(n, 0)` and the accumulator that the function scales);
the counter never exceeds `max(n, 0)`, so it never exceeds `n` when `n >= 0`
and never exceeds `INT64_MAX`, and `++i` never overflows; the body squares the
double `di`, not the integer `i`, and that square is at most `2^126` for every
counter value, whereas the integer square of `3037000500` exceeds `INT64_MAX`. -/
theorem loop_trips (fl : ℚ → ℚ) (n : ℤ) (hn : n ≤ INT64_MAX) :
    (∀ k : ℕ, (k : ℤ) ≤ max n 0 →
      loopAfter fl n k = LoopOutcome.running ⟨k, k, forLoop fl 0 k 0⟩) ∧
    (∀ k : ℕ, max n 0 < (k : ℤ) →
      loopAfter fl n k =
        LoopOutcome.finished ⟨(max n 0).toNat, max n 0, forLoop fl 0 n 0⟩) ∧
    (∀ (k : ℕ) (st : LoopState), loopAfter fl n k ≠ LoopOutcome.overflow st) ∧
    (∀ (k : ℕ) (st : LoopState),
      loopAfter fl n k = LoopOutcome.running st ∨ loopAfter fl n k = LoopOutcome.finished st →
      0 ≤ st.i ∧ st.i ≤ max n 0 ∧ st.i ≤ INT64_MAX ∧ (0 ≤ n → st.i ≤ n)) ∧
    (∀ (sum : ℚ) (i : ℤ), loopBody fl sum i = fl (sum + fl (fl (i : ℚ) * fl (i : ℚ)))) ∧
    (∀ i : ℤ, 0 ≤ i → i ≤ INT64_MAX →
      0 ≤ binary64 (binary64 (i : ℚ) * binary64 (i : ℚ)) ∧
      binary64 (binary64 (i : ℚ) * binary64 (i : ℚ)) ≤ 2 ^ 126) ∧
    INT64_MAX < 3037000500 * 3037000500 := by
  have hfin : ∀ k : ℕ, max n 0 < (k : ℤ) →
      loopAfter fl n k =
        LoopOutcome.finished ⟨(max n 0).toNat, max n 0, forLoop fl 0 n 0⟩ := by
    intro k hk
    have hm : 0 ≤ max n 0 := le_max_right n 0
    have e : k = (max n 0).toNat + 1 + (k - ((max n 0).toNat + 1)) := by omega
    rw [e]; exact loopAfter_finished fl hn _
  have hcases : ∀ k : ℕ,
      loopAfter fl n k = LoopOutcome.running ⟨k, k, forLoop fl 0 k 0⟩ ∧ (k : ℤ) ≤ max n 0 ∨
      loopAfter fl n k =
        LoopOutcome.finished ⟨(max n 0).toNat, max n 0, forLoop fl 0 n 0⟩ := by
    intro k
    rcases le_or_lt (k : ℤ) (max n 0) with h | h
    · exact Or.inl ⟨loopAfter_running fl hn k h, h⟩
    · exact Or.inr (hfin k h)
  have hmax : max n 0 ≤ INT64_MAX := max_le hn (by norm_num [INT64_MAX])
  refine ⟨fun k hk => loopAfter_running fl hn k hk, hfin, ?_, ?_, fun _ _ => rfl,
    fun i h0 h => ⟨(square_term_le h0 h).2.2.2.2.1, (square_term_le h0 h).2.2.2.2.2⟩,
    by norm_num [INT64_MAX]⟩
  · intro k st
    rcases hcases k with ⟨h, _⟩ | h <;> rw [h] <;> simp
  · intro k st hst
    have key : 0 ≤ st.i ∧ st.i ≤ max n 0 := by
      rcases hcases k with ⟨h, hk⟩ | h
      · rw [h] at hst
        simp only [LoopOutcome.running.injEq, reduceCtorEq, or_false] at hst
        subst hst
        exact ⟨Int.natCast_nonneg k, hk⟩
      · rw [h] at hst
        simp only [LoopOutcome.finished.injEq, reduceCtorEq, false_or] at hst
        subst hst
        exact ⟨le_max_right n 0, le_rfl⟩
    exact ⟨key.1, key.2, le_trans key.2 hmax, fun h => by rw [max_eq_left h] at key; exact key.2⟩

theorem loop_trips_witness :
    loopAfter binary64 INT64_MAX 3 = LoopOutcome.running ⟨3, 3, forLoop binary64 0 3 0⟩ ∧
    loopAfter binary64 5 9 = LoopOutcome.finished ⟨5, 5, forLoop binary64 0 5 0⟩ :=
  ⟨(loop_trips binary64 INT64_MAX le_rfl).1 3 (by norm_num [INT64_MAX]),
    (loop_trips binary64 5 (by norm_num [INT64_MAX])).2.1 9 (by decide)⟩

/-- C15: the result is never negative: for every `n`, `heavy_compute_cpp(n) >= 0`,
and `heavy_compute_cpp(n) > 0` exactly when `n >= 2`. -/
theorem result_sign (n : ℤ) :
    0 ≤ heavy_compute_cpp binary64 n ∧ (0 < heavy_compute_cpp binary64 n ↔ 2 ≤ n) := by
  refine ⟨heavy_compute_cpp_nonneg n, fun h => ?_, heavy_compute_cpp_pos⟩
  by_contra hlt
  rcases (show n ≤ 0 ∨ n = 1 by omega) with h0 | h1
  · rw [heavy_compute_cpp_of_nonpos h0] at h; exact lt_irrefl _ h
  · rw [h1, heavy_compute_cpp_one] at h; exact lt_irrefl _ h

end ComputeExt
